import Mathlib

/-!
Verification of the heading/structure classifier and the title normalizer of
`book_formatter.py`.

The Python code is shallowly embedded.  Regular expressions are modelled as
deterministic parsers over `List Char`: every quantifier boundary in the
patterns of the source separates disjoint character classes, so the
backtracking engine behaves deterministically on the inputs the program
feeds them (stripped, whitespace-collapsed text); the one residual
divergence (a trailing-whitespace corner of `\s+.+`) cannot arise on such
inputs and is noted at the definition.  Python string methods (`strip`,
`split`/`join`, `upper`, `lower`, `replace`) are modelled on their ASCII
fragment, which is what `Char.toUpper`/`Char.toLower` implement and what the
explicitly ASCII character classes (`[A-Za-z]`, `[IVXLC]`, `\d`) of the
source patterns work on.
-/

/-- Bridge between `Char` equality and code-point equality. -/
theorem char_eq_iff {c d : Char} : c = d ↔ c.toNat = d.toNat :=
  ⟨fun h => h ▸ rfl, fun h => by rw [← Char.ofNat_toNat c, ← Char.ofNat_toNat d, h]⟩

/-- ASCII model of Python's whitespace class `\s` (also the separator set of
`str.split()` and the default strip set of `str.strip()`):
space, tab, newline, carriage return, vertical tab, form feed. -/
def pySpace (c : Char) : Bool :=
  c == ' ' || c == '\t' || c == '\n' || c == '\r' || c == '\x0b' || c == '\x0c'

theorem pySpace_iff {c : Char} : pySpace c = true ↔
    c.toNat = 32 ∨ c.toNat = 9 ∨ c.toNat = 10 ∨ c.toNat = 13 ∨ c.toNat = 11 ∨ c.toNat = 12 := by
  simp only [pySpace, Bool.or_eq_true, beq_iff_eq]
  constructor
  · rintro (((((h | h) | h) | h) | h) | h) <;> subst h <;> decide
  · have e1 : (' ').toNat = 32 := by decide
    have e2 : ('\t').toNat = 9 := by decide
    have e3 : ('\n').toNat = 10 := by decide
    have e4 : ('\r').toNat = 13 := by decide
    have e5 : ('\x0b').toNat = 11 := by decide
    have e6 : ('\x0c').toNat = 12 := by decide
    rintro (h | h | h | h | h | h)
    · exact Or.inl (Or.inl (Or.inl (Or.inl (Or.inl (char_eq_iff.mpr (h.trans e1.symm))))))
    · exact Or.inl (Or.inl (Or.inl (Or.inl (Or.inr (char_eq_iff.mpr (h.trans e2.symm))))))
    · exact Or.inl (Or.inl (Or.inl (Or.inr (char_eq_iff.mpr (h.trans e3.symm)))))
    · exact Or.inl (Or.inl (Or.inr (char_eq_iff.mpr (h.trans e4.symm))))
    · exact Or.inl (Or.inr (char_eq_iff.mpr (h.trans e5.symm)))
    · exact Or.inr (char_eq_iff.mpr (h.trans e6.symm))

/-- `\d` (ASCII digits `0`-`9`). -/
def isDigitC (c : Char) : Bool := 48 ≤ c.toNat && c.toNat ≤ 57

/-- ASCII upper-case letter `A`-`Z`. -/
def isUpperC (c : Char) : Bool := 65 ≤ c.toNat && c.toNat ≤ 90

/-- ASCII lower-case letter `a`-`z`. -/
def isLowerC (c : Char) : Bool := 97 ≤ c.toNat && c.toNat ≤ 122

/-- `[A-Za-z]`, the (ASCII) letter class used by the title-casing pattern. -/
def isAlphaC (c : Char) : Bool := isUpperC c || isLowerC c

/-- ASCII model of the word class `\w` underlying `\b` word boundaries. -/
def wordC (c : Char) : Bool := isAlphaC c || isDigitC c || c == '_'

/-- The dash class `[—-]` (em dash or hyphen). -/
def dashC (c : Char) : Bool := c == '—' || c == '-'

/-- `[IVXLC]` under `re.I`: the roman-numeral letters, either case. -/
def romanCC (c : Char) : Bool :=
  c == 'I' || c == 'V' || c == 'X' || c == 'L' || c == 'C' ||
  c == 'i' || c == 'v' || c == 'x' || c == 'l' || c == 'c'

theorem toNat_ofNat_lt {n : Nat} (h : n < 55296) : (Char.ofNat n).toNat = n := by
  rw [Char.ofNat, dif_pos (Or.inl h)]
  rfl

/-- Code-point description of `Char.toUpper` (the ASCII model of `str.upper`). -/
theorem toUpper_toNat (c : Char) :
    (Char.toUpper c).toNat = if 97 ≤ c.toNat ∧ c.toNat ≤ 122 then c.toNat - 32 else c.toNat := by
  have hdef : Char.toUpper c =
      if 97 ≤ c.toNat ∧ c.toNat ≤ 122 then Char.ofNat (c.toNat - 32) else c := rfl
  rw [hdef]
  by_cases h : 97 ≤ c.toNat ∧ c.toNat ≤ 122
  · rw [if_pos h, if_pos h]
    exact toNat_ofNat_lt (by omega)
  · rw [if_neg h, if_neg h]

/-- Code-point description of `Char.toLower` (the ASCII model of `str.lower`). -/
theorem toLower_toNat (c : Char) :
    (Char.toLower c).toNat = if 65 ≤ c.toNat ∧ c.toNat ≤ 90 then c.toNat + 32 else c.toNat := by
  have hdef : Char.toLower c =
      if 65 ≤ c.toNat ∧ c.toNat ≤ 90 then Char.ofNat (c.toNat + 32) else c := rfl
  rw [hdef]
  by_cases h : 65 ≤ c.toNat ∧ c.toNat ≤ 90
  · rw [if_pos h, if_pos h]
    exact toNat_ofNat_lt (by omega)
  · rw [if_neg h, if_neg h]

theorem toUpper_toUpper (c : Char) : c.toUpper.toUpper = c.toUpper := by
  rw [char_eq_iff, toUpper_toNat, toUpper_toNat]
  by_cases h : 97 ≤ c.toNat ∧ c.toNat ≤ 122
  · simp only [if_pos h]
    rw [if_neg (by omega)]
  · simp only [if_neg h]

theorem toLower_toLower (c : Char) : c.toLower.toLower = c.toLower := by
  rw [char_eq_iff, toLower_toNat, toLower_toNat]
  by_cases h : 65 ≤ c.toNat ∧ c.toNat ≤ 90
  · simp only [if_pos h]
    rw [if_neg (by omega)]
  · simp only [if_neg h]

theorem pySpace_toUpper (c : Char) : pySpace c.toUpper = pySpace c := by
  have key : pySpace c.toUpper = true ↔ pySpace c = true := by
    rw [pySpace_iff, pySpace_iff, toUpper_toNat]
    split <;> omega
  cases hu : pySpace c.toUpper <;> cases hc : pySpace c <;> simp_all

theorem pySpace_toLower (c : Char) : pySpace c.toLower = pySpace c := by
  have key : pySpace c.toLower = true ↔ pySpace c = true := by
    rw [pySpace_iff, pySpace_iff, toLower_toNat]
    split <;> omega
  cases hu : pySpace c.toLower <;> cases hc : pySpace c <;> simp_all

/-! ## List-of-characters utilities modelling Python string methods -/

/-- Remove the maximal trailing run of characters satisfying `p`
(the tail half of Python's `str.strip`). -/
def dropEnd (p : Char → Bool) : List Char → List Char
  | [] => []
  | c :: cs =>
    let r := dropEnd p cs
    if r.isEmpty then (if p c then [] else [c]) else c :: r

/-- Python `s.strip(chars)`: remove leading and trailing characters of the set `p`. -/
def stripChars (p : Char → Bool) (cs : List Char) : List Char :=
  dropEnd p (cs.dropWhile p)

/-- Python `s.strip()` (ASCII fragment). -/
def pyStrip (cs : List Char) : List Char := stripChars pySpace cs

/-- The strip set of `.strip(" .")` used by `clean_structure`. -/
def dotSpace (c : Char) : Bool := c == ' ' || c == '.'

/-- Python `s.replace("—", "-")`: the pattern is a single character, so this
is a character map. -/
def replaceDash (cs : List Char) : List Char :=
  cs.map (fun c => if c == '—' then '-' else c)

/-- State machine for `" ".join(s.split())` after the leading whitespace has
been removed: each internal whitespace run becomes a single `' '`, a trailing
whitespace run is deleted. -/
def collapseGo : List Char → List Char
  | [] => []
  | c :: cs =>
    if pySpace c then
      match collapseGo cs with
      | [] => []
      | d :: r => if d = ' ' then d :: r else ' ' :: d :: r
    else c :: collapseGo cs

/-- Python `" ".join(s.split())`: collapse whitespace runs to single spaces
and strip the ends. -/
def collapse (cs : List Char) : List Char := collapseGo (cs.dropWhile pySpace)

/-- Every whitespace character of the list is a plain space. -/
def AllSp (l : List Char) : Prop := ∀ c ∈ l, pySpace c = true → c = ' '

/-- No two adjacent spaces. -/
def NoDbl (l : List Char) : Prop := List.Chain' (fun a b => ¬(a = ' ' ∧ b = ' ')) l

theorem dropEnd_nil (p : Char → Bool) : dropEnd p [] = [] := rfl

theorem dropEnd_pref (p : Char → Bool) : ∀ l : List Char, dropEnd p l <+: l := by
  intro l
  induction l with
  | nil => exact List.nil_prefix
  | cons c cs ih =>
    show (let r := dropEnd p cs; if r.isEmpty then (if p c then [] else [c]) else c :: r) <+: c :: cs
    by_cases h : (dropEnd p cs).isEmpty
    · simp only [h, if_true]
      by_cases hp : p c
      · simp [hp, List.nil_prefix]
      · simp only [hp, if_false]
        exact ⟨cs, rfl⟩
    · simp only [h, if_false]
      exact (List.prefix_cons_inj c).mpr ih

theorem dropEnd_cons (p : Char → Bool) (c : Char) (cs : List Char) :
    dropEnd p (c :: cs) =
      if (dropEnd p cs).isEmpty then (if p c then [] else [c]) else c :: dropEnd p cs := rfl

theorem dropEnd_getLast (p : Char → Bool) :
    ∀ (l : List Char) (x : Char), (dropEnd p l).getLast? = some x → p x = false := by
  intro l
  induction l with
  | nil => intro x hx; simp [dropEnd] at hx
  | cons c cs ih =>
    intro x hx
    rw [dropEnd_cons] at hx
    by_cases h : (dropEnd p cs).isEmpty
    · rw [if_pos h] at hx
      by_cases hp : p c
      · rw [if_pos hp] at hx; simp at hx
      · rw [if_neg hp] at hx
        simp only [List.getLast?_singleton, Option.some.injEq] at hx
        rw [← hx]
        exact Bool.eq_false_iff.mpr hp
    · rw [if_neg h] at hx
      rcases hr : dropEnd p cs with _ | ⟨d, r⟩
      · exact absurd (by rw [hr]; rfl) h
      · rw [hr, List.getLast?_cons_cons] at hx
        exact ih x (by rw [hr]; exact hx)

theorem dropEnd_eq_self {p : Char → Bool} :
    ∀ {l : List Char}, (∀ x, l.getLast? = some x → p x = false) → dropEnd p l = l := by
  intro l
  induction l with
  | nil => intro _; rfl
  | cons c cs ih =>
    intro h
    rw [dropEnd_cons]
    rcases hcs : cs with _ | ⟨d, r⟩
    · subst hcs
      have hc := h c (by simp)
      simp [dropEnd, hc]
    · subst hcs
      have htail : dropEnd p (d :: r) = d :: r :=
        ih (fun x hx => h x (by rw [List.getLast?_cons_cons]; exact hx))
      rw [htail]
      simp

theorem collapseGo_cons (c : Char) (cs : List Char) :
    collapseGo (c :: cs) =
      if pySpace c then
        (match collapseGo cs with
         | [] => []
         | d :: r => if d = ' ' then d :: r else ' ' :: d :: r)
      else c :: collapseGo cs := rfl

theorem collapseGo_sp_nil {c : Char} {cs : List Char} (hc : pySpace c = true)
    (hr : collapseGo cs = []) : collapseGo (c :: cs) = [] := by
  rw [collapseGo_cons, if_pos hc, hr]

theorem collapseGo_sp_cons {c d : Char} {cs r : List Char} (hc : pySpace c = true)
    (hr : collapseGo cs = d :: r) :
    collapseGo (c :: cs) = if d = ' ' then d :: r else ' ' :: d :: r := by
  rw [collapseGo_cons, if_pos hc, hr]

theorem collapseGo_nosp {c : Char} {cs : List Char} (hc : pySpace c = false) :
    collapseGo (c :: cs) = c :: collapseGo cs := by
  rw [collapseGo_cons, if_neg (by simp [hc])]

theorem mem_collapseGo : ∀ {l : List Char} {x : Char}, x ∈ collapseGo l → x ∈ l ∨ x = ' ' := by
  intro l
  induction l with
  | nil => intro x hx; simp [collapseGo] at hx
  | cons c cs ih =>
    intro x hx
    by_cases hc : pySpace c
    · rcases hr : collapseGo cs with _ | ⟨d, r⟩
      · rw [collapseGo_sp_nil hc hr] at hx; simp at hx
      · rw [collapseGo_sp_cons hc hr] at hx
        by_cases hd : d = ' '
        · rw [if_pos hd] at hx
          rcases ih (by rw [hr]; exact hx) with h | h
          · exact Or.inl (List.mem_cons_of_mem c h)
          · exact Or.inr h
        · rw [if_neg hd] at hx
          rcases List.mem_cons.mp hx with h | h
          · exact Or.inr h
          · rcases ih (by rw [hr]; exact h) with h' | h'
            · exact Or.inl (List.mem_cons_of_mem c h')
            · exact Or.inr h'
    · rw [collapseGo_nosp (Bool.eq_false_iff.mpr hc)] at hx
      rcases List.mem_cons.mp hx with h | h
      · exact Or.inl (h ▸ List.mem_cons_self c cs)
      · rcases ih h with h' | h'
        · exact Or.inl (List.mem_cons_of_mem c h')
        · exact Or.inr h'

theorem AllSp_collapseGo (l : List Char) : AllSp (collapseGo l) := by
  induction l with
  | nil => intro x hx; simp [collapseGo] at hx
  | cons c cs ih =>
    intro x hx hsp
    by_cases hc : pySpace c
    · rcases hr : collapseGo cs with _ | ⟨d, r⟩
      · rw [collapseGo_sp_nil hc hr] at hx; simp at hx
      · rw [collapseGo_sp_cons hc hr] at hx
        by_cases hd : d = ' '
        · rw [if_pos hd] at hx
          exact ih x (by rw [hr]; exact hx) hsp
        · rw [if_neg hd] at hx
          rcases List.mem_cons.mp hx with h | h
          · exact h
          · exact ih x (by rw [hr]; exact h) hsp
    · rw [collapseGo_nosp (Bool.eq_false_iff.mpr hc)] at hx
      rcases List.mem_cons.mp hx with h | h
      · exact absurd (h ▸ hsp) (by simp [hc])
      · exact ih x h hsp

theorem NoDbl_nil : NoDbl [] := List.chain'_nil

theorem NoDbl_cons {a : Char} {l : List Char} :
    NoDbl (a :: l) ↔ (∀ y, l.head? = some y → ¬(a = ' ' ∧ y = ' ')) ∧ NoDbl l := by
  unfold NoDbl
  rw [List.chain'_cons']
  constructor
  · exact fun ⟨h1, h2⟩ => ⟨fun y hy => h1 y hy, h2⟩
  · exact fun ⟨h1, h2⟩ => ⟨fun y hy => h1 y hy, h2⟩

theorem NoDbl_cons_cons {a b : Char} {l : List Char} :
    NoDbl (a :: b :: l) ↔ ¬(a = ' ' ∧ b = ' ') ∧ NoDbl (b :: l) := by
  unfold NoDbl
  rw [List.chain'_cons]

theorem NoDbl_collapseGo (l : List Char) : NoDbl (collapseGo l) := by
  induction l with
  | nil => exact NoDbl_nil
  | cons c cs ih =>
    by_cases hc : pySpace c
    · rcases hr : collapseGo cs with _ | ⟨d, r⟩
      · rw [collapseGo_sp_nil hc hr]; exact NoDbl_nil
      · rw [collapseGo_sp_cons hc hr]
        by_cases hd : d = ' '
        · rw [if_pos hd, ← hr]; exact ih
        · rw [if_neg hd]
          rw [NoDbl_cons_cons]
          exact ⟨fun h => hd h.2, by rw [← hr]; exact ih⟩
    · rw [collapseGo_nosp (Bool.eq_false_iff.mpr hc)]
      have hcsp : c ≠ ' ' := fun h => by rw [h] at hc; exact hc (by decide)
      rw [NoDbl_cons]
      exact ⟨fun y _ h => hcsp h.1, ih⟩

theorem collapseGo_eq_self :
    ∀ {l : List Char}, AllSp l → NoDbl l → (∀ x, l.getLast? = some x → x ≠ ' ') →
      collapseGo l = l := by
  intro l
  induction l with
  | nil => intro _ _ _; rfl
  | cons c cs ih =>
    intro hall hdbl hlast
    rcases hcs : cs with _ | ⟨d, r⟩
    · subst hcs
      have hc : pySpace c = false := by
        rcases hb : pySpace c with _ | _
        · rfl
        · exact absurd (hall c (by simp) hb) (hlast c (by simp))
      rw [collapseGo_nosp hc]
      rfl
    · subst hcs
      have htail : collapseGo (d :: r) = d :: r := by
        apply ih
        · exact fun x hx hsp => hall x (List.mem_cons_of_mem c hx) hsp
        · exact (NoDbl_cons.mp hdbl).2
        · exact fun x hx => hlast x (by rw [List.getLast?_cons_cons]; exact hx)
      by_cases hc : pySpace c
      · have hceq : c = ' ' := hall c (List.mem_cons_self c _) hc
        rw [collapseGo_sp_cons hc htail]
        have hd : d ≠ ' ' := by
          intro hdeq
          exact (NoDbl_cons_cons.mp hdbl).1 ⟨hceq, hdeq⟩
        rw [if_neg hd, hceq]
      · rw [collapseGo_nosp (Bool.eq_false_iff.mpr hc), htail]

theorem AllSp_sub {l l' : List Char} (hsub : l' ⊆ l) (h : AllSp l) : AllSp l' :=
  fun c hc => h c (hsub hc)

theorem NoDbl_of_pref {l l' : List Char} (h : l' <+: l) (hd : NoDbl l) : NoDbl l' :=
  List.Chain'.prefix hd h

theorem NoDbl_of_suffix {l l' : List Char} (h : l' <:+ l) (hd : NoDbl l) : NoDbl l' :=
  List.Chain'.suffix hd h

theorem AllSp_collapse (l : List Char) : AllSp (collapse l) := AllSp_collapseGo _

theorem NoDbl_collapse (l : List Char) : NoDbl (collapse l) := NoDbl_collapseGo _

theorem mem_collapse {l : List Char} {x : Char} (h : x ∈ collapse l) : x ∈ l ∨ x = ' ' :=
  (mem_collapseGo h).imp_left (fun h' => List.dropWhile_subset _ h')

theorem stripChars_subset (p : Char → Bool) (l : List Char) : stripChars p l ⊆ l :=
  fun _ hx => List.dropWhile_subset p ((dropEnd_pref p _).subset hx)

theorem head?_of_pref {l' l : List Char} (h : l' <+: l) {x : Char}
    (hx : l'.head? = some x) : l.head? = some x := by
  obtain ⟨t, rfl⟩ := h
  rcases l' with _ | ⟨a, r⟩
  · simp at hx
  · simpa using hx

theorem stripChars_head {p : Char → Bool} {l : List Char} {x : Char}
    (hx : (stripChars p l).head? = some x) : p x = false := by
  have h1 : (l.dropWhile p).head? = some x :=
    head?_of_pref (dropEnd_pref p (l.dropWhile p)) hx
  have h2 := List.head?_dropWhile_not p l
  rw [h1] at h2
  exact h2

theorem stripChars_last {p : Char → Bool} {l : List Char} {x : Char}
    (hx : (stripChars p l).getLast? = some x) : p x = false :=
  dropEnd_getLast p _ x hx

theorem not_dash_mem_replaceDash (l : List Char) : '—' ∉ replaceDash l := by
  intro h
  rw [replaceDash, List.mem_map] at h
  obtain ⟨c, _, hc⟩ := h
  by_cases hcc : (c == '—') = true
  · rw [if_pos hcc] at hc
    exact absurd hc (by decide)
  · rw [if_neg hcc] at hc
    rw [hc] at hcc
    exact hcc (by decide)

/-- `" ".join(text.replace("—","-").split()).strip(" .")`, the normalization
prefix of both branches of `clean_structure`. -/
def pyNorm (cs : List Char) : List Char := stripChars dotSpace (collapse (replaceDash cs))

theorem AllSp_pyNorm (cs : List Char) : AllSp (pyNorm cs) :=
  AllSp_sub (stripChars_subset _ _) (AllSp_collapse _)

theorem NoDbl_pyNorm (cs : List Char) : NoDbl (pyNorm cs) :=
  NoDbl_of_pref (dropEnd_pref _ _) (NoDbl_of_suffix (List.dropWhile_suffix _) (NoDbl_collapse _))

theorem dotSpace_false {x : Char} (h : dotSpace x = false) : x ≠ ' ' ∧ x ≠ '.' := by
  constructor <;> intro hx <;> rw [hx] at h <;> exact absurd h (by decide)

theorem pyNorm_head {cs : List Char} {x : Char} (hx : (pyNorm cs).head? = some x) :
    pySpace x = false := by
  have hds : dotSpace x = false := stripChars_head hx
  have hmem : x ∈ pyNorm cs := List.mem_of_mem_head? hx
  rcases hb : pySpace x with _ | _
  · rfl
  · have := AllSp_pyNorm cs x hmem hb
    exact absurd ((dotSpace_false hds).1 this) id

theorem pyNorm_last {cs : List Char} {x : Char} (hx : (pyNorm cs).getLast? = some x) :
    x ≠ ' ' ∧ x ≠ '.' :=
  dotSpace_false (stripChars_last hx)

theorem not_dash_pyNorm (cs : List Char) : '—' ∉ pyNorm cs := by
  intro h
  rcases mem_collapse (stripChars_subset _ _ h) with h' | h'
  · exact not_dash_mem_replaceDash cs h'
  · exact absurd h' (by decide)

theorem no_nl_of_AllSp {l : List Char} (h : AllSp l) : '\n' ∉ l := by
  intro hm
  have := h '\n' hm (by decide)
  exact absurd this (by decide)

/-- The shape shared by every string that re-enters `clean_structure` as a
derived title: non-empty, whitespace-collapsed, stripped. -/
structure Canon (l : List Char) : Prop where
  ne : l ≠ []
  allsp : AllSp l
  nodbl : NoDbl l
  headNoSp : ∀ x, l.head? = some x → pySpace x = false
  lastOk : ∀ x, l.getLast? = some x → x ≠ ' ' ∧ x ≠ '.'
  nodash : '—' ∉ l

theorem getLast?_append_right {pre g : List Char} (h : g ≠ []) :
    (pre ++ g).getLast? = g.getLast? := by
  rw [List.getLast?_append]
  obtain ⟨y, hy⟩ := Option.isSome_iff_exists.mp (List.getLast?_isSome.mpr h)
  rw [hy]
  rfl

theorem canon_of_suffix {s pre g : List Char}
    (hs : s = pre ++ g) (hg : g ≠ []) (hgh : ∀ x, g.head? = some x → pySpace x = false)
    (hsall : AllSp s) (hsdbl : NoDbl s)
    (hslast : ∀ x, s.getLast? = some x → x ≠ ' ' ∧ x ≠ '.')
    (hsdash : '—' ∉ s) : Canon g := by
  subst hs
  refine ⟨hg, AllSp_sub (List.subset_append_right pre g) hsall,
    NoDbl_of_suffix ⟨pre, rfl⟩ hsdbl, hgh, ?_, fun h => hsdash (List.mem_append_right pre h)⟩
  intro x hx
  exact hslast x (by rw [getLast?_append_right hg]; exact hx)

/-! ## Deterministic parsers modelling the regular expressions of the source

Every quantifier boundary in these patterns separates disjoint character
classes (`\s` vs `\d`, `\s` vs `[IVXLC]`, `[—-]` vs `\s`, …), so Python's
backtracking matcher is deterministic on them and a straight-line parser is
a faithful model; the only approximation is noted where it occurs. -/

/-- Consume a literal case-insensitively (`re.I`); the literal is supplied in
lower case. -/
def eatLitCI : List Char → List Char → Option (List Char)
  | [], cs => some cs
  | _ :: _, [] => none
  | l :: ls, c :: cs => if c.toLower = l then eatLitCI ls cs else none

/-- Greedy `p+` for a character class `p`. -/
def eatPlus (p : Char → Bool) : List Char → Option (List Char)
  | [] => none
  | c :: cs => if p c then some (cs.dropWhile p) else none

/-- A single character of class `p`. -/
def eatOne (p : Char → Bool) : List Char → Option (List Char)
  | [] => none
  | c :: cs => if p c then some cs else none

/-- `sec_pat = ^\s*SECTION\s+([IVXLC]+)\b.*` under `re.I`, as a Boolean match
(the capture group is unused by the classifier).  The trailing `.*` always
succeeds.  The `\b` after the greedy roman run holds iff the character after
the run is not a word character: inside the run every position is
word–word, so shrinking the run can never resurrect a failed boundary. -/
def secPat (cs : List Char) : Bool :=
  match eatLitCI "section".data (cs.dropWhile pySpace) with
  | none => false
  | some r1 =>
    match eatPlus pySpace r1 with
    | none => false
    | some r2 =>
      match eatPlus romanCC r2 with
      | none => false
      | some r3 =>
        match r3.head? with
        | none => true
        | some c => !wordC c

/-- `ch_pat = ^\s*CHAPTER\s+(\d+)\b.*` under `re.I`, as a Boolean match. -/
def chPat (cs : List Char) : Bool :=
  match eatLitCI "chapter".data (cs.dropWhile pySpace) with
  | none => false
  | some r1 =>
    match eatPlus pySpace r1 with
    | none => false
    | some r2 =>
      match eatPlus isDigitC r2 with
      | none => false
      | some r3 =>
        match r3.head? with
        | none => true
        | some c => !wordC c

/-- `h1_pat = ^\s*\d+\.\s+.+`.  After the greedy `\s+` the next character is
not whitespace, hence not a newline, so `.+` succeeds iff the remainder is
non-empty; this is exact for text with no trailing whitespace, which is the
only text the classifier matches (it strips every unit first). -/
def h1Pat (cs : List Char) : Bool :=
  match eatPlus isDigitC (cs.dropWhile pySpace) with
  | none => false
  | some r1 =>
    match eatOne (fun c => c == '.') r1 with
    | none => false
    | some r2 =>
      match eatPlus pySpace r2 with
      | none => false
      | some r3 => !r3.isEmpty

/-- `h2_pat = ^\s*\d+\.\d+\s+.+` (same remark as for `h1Pat`). -/
def h2Pat (cs : List Char) : Bool :=
  match eatPlus isDigitC (cs.dropWhile pySpace) with
  | none => false
  | some r1 =>
    match eatOne (fun c => c == '.') r1 with
    | none => false
    | some r2 =>
      match eatPlus isDigitC r2 with
      | none => false
      | some r3 =>
        match eatPlus pySpace r3 with
        | none => false
        | some r4 => !r4.isEmpty

/-! ## The structure classifier

`parse_docx_input` and `parse_pdf_input` run one shared accumulation loop;
the only difference is that the pdf reader has no style information (its
lines behave like paragraphs whose style name is `""`, which is not a
heading style) and pre-strips its lines, which the shared loop re-does
harmlessly.  `HeadingItem`/`ContentBlock` mirror the type aliases of the
source (level 1 = Section, level 2 = Chapter). -/

abbrev HeadingItem := Nat × String

abbrev ContentBlock := Nat × List String

/-- One input paragraph (docx mode: text plus style name) or line (pdf mode:
text only, `styleHint = ""`). -/
structure TextUnit where
  content : String
  styleHint : String

/-- The per-unit heading decision: style names first
(`Heading 1`/`Titolo 1` → 1, `Heading 2`/`Titolo 2` → 2), otherwise the
text patterns with `sec_pat`/`h1_pat` giving level 1 before
`ch_pat`/`h2_pat` giving level 2. -/
def detectLevel (style : String) (text : String) : Option Nat :=
  if style = "Heading 1" ∨ style = "Titolo 1" then some 1
  else if style = "Heading 2" ∨ style = "Titolo 2" then some 2
  else if secPat text.data || h1Pat text.data then some 1
  else if chPat text.data || h2Pat text.data then some 2
  else none

/-- The mutable loop state of the parser: `headings`, `blocks`,
`curr_level`, `curr_buf`. -/
structure CState where
  headings : List HeadingItem
  blocks : List ContentBlock
  currLevel : Option Nat
  currBuf : List String

def initSt : CState := ⟨[], [], none, []⟩

/-- The inner `flush()`: emit `(curr_level, curr_buf)` only when a current
level is active, then reset both. -/
def flushSt (st : CState) : CState :=
  match st.currLevel with
  | some l => { st with blocks := st.blocks ++ [(l, st.currBuf)], currLevel := none, currBuf := [] }
  | none => { st with currLevel := none, currBuf := [] }

/-- `text = (p.text or "").strip()` of the loop body. -/
def stripOf (u : TextUnit) : String := String.mk (pyStrip u.content.data)

/-- One iteration of the loop body: strip, skip blanks, classify, then
either flush-and-append a heading or buffer body text (synthesising the
implicit `SECTION I — INTRODUCTION` heading if none is active yet). -/
def stepUnit (st : CState) (u : TextUnit) : CState :=
  let text := stripOf u
  if text = "" then st
  else
    match detectLevel u.styleHint text with
    | some l =>
      let st' := flushSt st
      { st' with headings := st'.headings ++ [(l, text)], currLevel := some l }
    | none =>
      match st.currLevel with
      | some _ => { st with currBuf := st.currBuf ++ [text] }
      | none =>
        { st with currLevel := some 1,
                  headings := st.headings ++ [(1, "SECTION I — INTRODUCTION")],
                  currBuf := st.currBuf ++ [text] }

/-- The shared classifier loop of `parse_docx_input`/`parse_pdf_input`:
fold the loop body over the units, then the final `flush()`. -/
def classify (units : List TextUnit) : List HeadingItem × List ContentBlock :=
  let st := flushSt (units.foldl stepUnit initSt)
  (st.headings, st.blocks)

/-! ## The title normalizer `clean_structure` -/

def _ROMANS : List String :=
  ["I", "II", "III", "IV", "V", "VI", "VII", "VIII", "IX", "X",
   "XI", "XII", "XIII", "XIV", "XV", "XVI", "XVII", "XVIII", "XIX", "XX"]

/-- `_roman(n)`: table lookup for `1 ≤ n ≤ 20`, fallback `"I"`. -/
def _roman (n : Nat) : String :=
  if 1 ≤ n ∧ n ≤ 20 then _ROMANS.getD (n - 1) "I" else "I"

/-- Decimal digits of `n` (Python `f"{ch_idx}"`), fuel-bounded so that the
definition is structural; `natRepr` supplies ample fuel. -/
def natReprAux : Nat → Nat → List Char
  | 0, _ => []
  | fuel + 1, n =>
    if n < 10 then [Nat.digitChar n] else natReprAux fuel (n / 10) ++ [Nat.digitChar (n % 10)]

def natRepr (n : Nat) : List Char := natReprAux (n + 1) n

/-- `re.search(r"section\s+[IVXLC]+\s*[—-]\s*(.+)", t, re.I)` tried at one
position; on success returns group 1.  `(.+)` is greedy and `.` excludes
newlines, so the group runs to the first newline (there is none in the
collapsed text this is applied to); if nothing follows the final `\s*` the
position fails — exact unless the string ends in whitespace, which
`clean_structure`'s stripped input cannot. -/
def secGroupAt (cs : List Char) : Option (List Char) :=
  match eatLitCI "section".data cs with
  | none => none
  | some r1 =>
    match eatPlus pySpace r1 with
    | none => none
    | some r2 =>
      match eatPlus romanCC r2 with
      | none => none
      | some r3 =>
        match eatOne dashC (r3.dropWhile pySpace) with
        | none => none
        | some r4 =>
          let r5 := r4.dropWhile pySpace
          if r5.isEmpty then none else some (r5.takeWhile (fun c => c != '\n'))

/-- `re.search(r"chapter\s+\d+\s*[—-]\s*(.+)", t, re.I)` tried at one
position (same remarks as `secGroupAt`). -/
def chGroupAt (cs : List Char) : Option (List Char) :=
  match eatLitCI "chapter".data cs with
  | none => none
  | some r1 =>
    match eatPlus pySpace r1 with
    | none => none
    | some r2 =>
      match eatPlus isDigitC r2 with
      | none => none
      | some r3 =>
        match eatOne dashC (r3.dropWhile pySpace) with
        | none => none
        | some r4 =>
          let r5 := r4.dropWhile pySpace
          if r5.isEmpty then none else some (r5.takeWhile (fun c => c != '\n'))

/-- `re.search`: try the pattern at each position left to right.  (At the
empty final position the patterns above need a literal, so omitting it is
harmless.) -/
def searchFrom (f : List Char → Option (List Char)) : List Char → Option (List Char)
  | [] => none
  | c :: cs =>
    match f (c :: cs) with
    | some g => some g
    | none => searchFrom f cs

def searchSec (cs : List Char) : Option (List Char) := searchFrom secGroupAt cs

def searchCh (cs : List Char) : Option (List Char) := searchFrom chGroupAt cs

/-- `re.sub(r"^\d+\.\s*", "", t)`: strip a leading `digits.` plus following
whitespace, if present. -/
def subNum (cs : List Char) : List Char :=
  match cs with
  | [] => cs
  | c :: rest =>
    if isDigitC c then
      match rest.dropWhile isDigitC with
      | [] => cs
      | d :: r => if d = '.' then r.dropWhile pySpace else cs
    else cs

/-- `re.sub(r"^\d+\.\d+\s*", "", t)`: strip a leading `digits.digits` plus
following whitespace, if present. -/
def subNumNum (cs : List Char) : List Char :=
  match cs with
  | [] => cs
  | c :: rest =>
    if isDigitC c then
      match rest.dropWhile isDigitC with
      | [] => cs
      | d :: r =>
        if d = '.' then
          match r with
          | [] => cs
          | e :: r2 => if isDigitC e then (r2.dropWhile isDigitC).dropWhile pySpace else cs
        else cs
    else cs

/-- `re.sub(r"([A-Za-z])([A-Za-z']*)", lambda m: m.group(1).upper() +
m.group(2).lower(), s)` as a scanner: `inWord` records whether the previous
character was consumed by a match (then a letter is part of `([A-Za-z']*)`
and lowered, otherwise it starts a match and is raised). -/
def titlecaseAux : Bool → List Char → List Char
  | _, [] => []
  | inWord, c :: cs =>
    if isAlphaC c then
      (if inWord then c.toLower else c.toUpper) :: titlecaseAux true cs
    else if c == '\'' then
      c :: titlecaseAux inWord cs
    else
      c :: titlecaseAux false cs

def titlecase (cs : List Char) : List Char := titlecaseAux false cs

/-- The alternatives of
`re.sub(r"\b(AI|LLM|API|SaaS|SQL|CPU|GPU|UI|UX|CLI|SDK|API)\b", ..., title)`
in order (the second `API` is kept for fidelity; alternation tries left to
right). -/
def acroLits : List (List Char) :=
  ["AI".data, "LLM".data, "API".data, "SaaS".data, "SQL".data, "CPU".data,
   "GPU".data, "UI".data, "UX".data, "CLI".data, "SDK".data, "API".data]

/-- Case-sensitive literal consumption. -/
def eatLit : List Char → List Char → Option (List Char)
  | [], cs => some cs
  | _ :: _, [] => none
  | l :: ls, c :: cs => if c = l then eatLit ls cs else none

/-- Try the alternatives in order at the current position; on success the
closing `\b` must hold (every literal ends in a word character, so the
boundary means: end of string or a non-word character follows). -/
def tryAcro (s : List Char) : List (List Char) → Option (List Char × List Char)
  | [] => none
  | lit :: ls =>
    match eatLit lit s with
    | some rest =>
      match rest.head? with
      | some c => if wordC c then tryAcro s ls else some (lit, rest)
      | none => some (lit, rest)
    | none => tryAcro s ls

/-- The substitution scan: `prevW` is whether the character before the scan
position is a word character (then the opening `\b` fails, as every
alternative starts with a word character); a replacement (`group(0).upper()`)
resumes right after the match.  Fuel-bounded to stay structural; each step
consumes at least one character, so `s.length` suffices. -/
def acroGo : Nat → Bool → List Char → List Char
  | 0, _, s => s
  | _ + 1, _, [] => []
  | fuel + 1, prevW, c :: cs =>
    if prevW then c :: acroGo fuel (wordC c) cs
    else
      match tryAcro (c :: cs) acroLits with
      | some (lit, rest) => lit.map Char.toUpper ++ acroGo fuel true rest
      | none => c :: acroGo fuel (wordC c) cs

def acronymSub (s : List Char) : List Char := acroGo s.length false s

/-- Section branch of `clean_structure`: group 1 of the `SECTION` search if
it matches, else the text with a leading `digits.` prefix stripped. -/
def secTitleRaw (t' : List Char) : List Char :=
  match searchSec t' with
  | some g => g
  | none => subNum t'

/-- `f"SECTION {_roman(sec_idx)} — {title.upper()}"`. -/
def cleanSectionText (k : Nat) (text : List Char) : List Char :=
  "SECTION ".data ++ (_roman k).data ++ " — ".data ++
    (secTitleRaw (pyNorm text)).map Char.toUpper

/-- Chapter branch: group 1 of the `CHAPTER` search if it matches, else the
text with a leading `digits.digits` prefix stripped. -/
def chTitleRaw (t' : List Char) : List Char :=
  match searchCh t' with
  | some g => g
  | none => subNumNum t'

/-- Title-case then the (case-sensitive) acronym re-upper pass. -/
def cleanChapterTitle (text : List Char) : List Char :=
  acronymSub (titlecase (chTitleRaw (pyNorm text)))

/-- `f"CHAPTER {ch_idx} — {title}"`. -/
def cleanChapterText (k : Nat) (text : List Char) : List Char :=
  "CHAPTER ".data ++ natRepr k ++ " — ".data ++ cleanChapterTitle text

/-- The loop of `clean_structure` with the two counters `sec_idx`, `ch_idx`
threaded explicitly (level 1 uses and bumps the section counter, any other
level the chapter counter; levels are preserved). -/
def cleanHeadings (s c : Nat) : List HeadingItem → List HeadingItem
  | [] => []
  | (level, text) :: rest =>
    if level = 1 then
      (level, String.mk (cleanSectionText (s + 1) text.data)) :: cleanHeadings (s + 1) c rest
    else
      (level, String.mk (cleanChapterText (c + 1) text.data)) :: cleanHeadings s (c + 1) rest

/-- `clean_structure`: rewrite the headings, pass the blocks through. -/
def clean_structure (headings : List HeadingItem) (blocks : List ContentBlock) :
    List HeadingItem × List ContentBlock :=
  (cleanHeadings 0 0 headings, blocks)

/-! ## Classifier lemmas -/

theorem stepUnit_def (st : CState) (u : TextUnit) : stepUnit st u =
    if stripOf u = "" then st
    else
      match detectLevel u.styleHint (stripOf u) with
      | some l =>
        { flushSt st with headings := (flushSt st).headings ++ [(l, stripOf u)], currLevel := some l }
      | none =>
        match st.currLevel with
        | some _ => { st with currBuf := st.currBuf ++ [stripOf u] }
        | none =>
          { st with currLevel := some 1, headings := st.headings ++ [(1, "SECTION I — INTRODUCTION")], currBuf := st.currBuf ++ [stripOf u] } := rfl

theorem stepUnit_blank {u : TextUnit} (st : CState) (h : stripOf u = "") :
    stepUnit st u = st := by
  rw [stepUnit_def, if_pos h]

theorem stepUnit_heading {u : TextUnit} {l : Nat} (st : CState) (h : stripOf u ≠ "")
    (hd : detectLevel u.styleHint (stripOf u) = some l) :
    stepUnit st u = { flushSt st with headings := (flushSt st).headings ++ [(l, stripOf u)], currLevel := some l } := by
  rw [stepUnit_def, if_neg h, hd]

theorem stepUnit_body_active {u : TextUnit} {l0 : Nat} (st : CState) (h : stripOf u ≠ "")
    (hd : detectLevel u.styleHint (stripOf u) = none) (hcl : st.currLevel = some l0) :
    stepUnit st u = { st with currBuf := st.currBuf ++ [stripOf u] } := by
  rw [stepUnit_def, if_neg h, hd, hcl]

theorem stepUnit_body_first {u : TextUnit} (st : CState) (h : stripOf u ≠ "")
    (hd : detectLevel u.styleHint (stripOf u) = none) (hcl : st.currLevel = none) :
    stepUnit st u = { st with currLevel := some 1, headings := st.headings ++ [(1, "SECTION I — INTRODUCTION")], currBuf := st.currBuf ++ [stripOf u] } := by
  rw [stepUnit_def, if_neg h, hd, hcl]

theorem flushSt_some {l : Nat} {st : CState} (h : st.currLevel = some l) :
    flushSt st = { st with blocks := st.blocks ++ [(l, st.currBuf)], currLevel := none, currBuf := [] } := by
  unfold flushSt
  rw [h]

theorem flushSt_none {st : CState} (h : st.currLevel = none) :
    flushSt st = { st with currLevel := none, currBuf := [] } := by
  unfold flushSt
  rw [h]

theorem flushSt_headings (st : CState) : (flushSt st).headings = st.headings := by
  rcases h : st.currLevel with _ | l
  · rw [flushSt_none h]
  · rw [flushSt_some h]

theorem flushSt_currLevel (st : CState) : (flushSt st).currLevel = none := by
  rcases h : st.currLevel with _ | l
  · rw [flushSt_none h]
  · rw [flushSt_some h]

/-- The running relation between the three accumulators: the heading levels
are the block levels followed by the pending level, if any. -/
def LevelsInv (st : CState) : Prop :=
  st.headings.map Prod.fst = st.blocks.map Prod.fst ++ st.currLevel.toList

theorem LevelsInv_init : LevelsInv initSt := rfl

theorem LevelsInv_flush {st : CState} (h : LevelsInv st) : LevelsInv (flushSt st) := by
  rcases hcl : st.currLevel with _ | l
  · rw [LevelsInv, flushSt_none hcl]
    rw [LevelsInv, hcl] at h
    simpa using h
  · rw [LevelsInv, flushSt_some hcl]
    rw [LevelsInv, hcl] at h
    simpa using h

theorem LevelsInv_step {st : CState} (u : TextUnit) (h : LevelsInv st) :
    LevelsInv (stepUnit st u) := by
  by_cases ht : stripOf u = ""
  · rw [stepUnit_blank st ht]; exact h
  · rcases hd : detectLevel u.styleHint (stripOf u) with _ | l
    · rcases hcl : st.currLevel with _ | l0
      · rw [LevelsInv, stepUnit_body_first st ht hd hcl]
        rw [LevelsInv, hcl] at h
        simp only [List.append_nil, Option.toList_none] at h
        simp [h]
      · rw [LevelsInv, stepUnit_body_active st ht hd hcl]
        rw [LevelsInv] at h
        simp [h]
    · rw [LevelsInv, stepUnit_heading st ht hd]
      have hfl := LevelsInv_flush h
      rw [LevelsInv, flushSt_currLevel st] at hfl
      simp only [List.append_nil, Option.toList_none] at hfl
      rw [flushSt_headings st] at hfl
      simp [flushSt_headings, hfl]

theorem LevelsInv_foldl :
    ∀ (units : List TextUnit) (st : CState), LevelsInv st →
      LevelsInv (units.foldl stepUnit st) := by
  intro units
  induction units with
  | nil => exact fun st h => h
  | cons u us ih => exact fun st h => ih (stepUnit st u) (LevelsInv_step u h)

theorem classify_map_fst (units : List TextUnit) :
    (classify units).1.map Prod.fst = (classify units).2.map Prod.fst := by
  have h := LevelsInv_flush (LevelsInv_foldl units initSt LevelsInv_init)
  rw [LevelsInv, flushSt_currLevel] at h
  simp only [List.append_nil, Option.toList_none] at h
  exact h

theorem stepUnit_headings (st : CState) (u : TextUnit) :
    ∃ d, (stepUnit st u).headings = st.headings ++ d := by
  by_cases ht : stripOf u = ""
  · exact ⟨[], by rw [stepUnit_blank st ht]; simp⟩
  · rcases hd : detectLevel u.styleHint (stripOf u) with _ | l
    · rcases hcl : st.currLevel with _ | l0
      · exact ⟨[(1, "SECTION I — INTRODUCTION")], by rw [stepUnit_body_first st ht hd hcl]⟩
      · exact ⟨[], by rw [stepUnit_body_active st ht hd hcl]; simp⟩
    · exact ⟨[(l, stripOf u)], by rw [stepUnit_heading st ht hd, flushSt_headings]⟩

theorem foldl_headings (units : List TextUnit) :
    ∀ st : CState, ∃ d, (units.foldl stepUnit st).headings = st.headings ++ d := by
  induction units with
  | nil => exact fun st => ⟨[], by simp⟩
  | cons u us ih =>
    intro st
    obtain ⟨d1, h1⟩ := stepUnit_headings st u
    obtain ⟨d2, h2⟩ := ih (stepUnit st u)
    exact ⟨d1 ++ d2, by rw [List.foldl_cons, h2, h1, List.append_assoc]⟩

theorem foldl_blank :
    ∀ {pre : List TextUnit} (st : CState), (∀ v ∈ pre, stripOf v = "") →
      pre.foldl stepUnit st = st := by
  intro pre
  induction pre with
  | nil => exact fun st _ => rfl
  | cons u us ih =>
    intro st h
    rw [List.foldl_cons, stepUnit_blank st (h u (List.mem_cons_self u us))]
    exact ih st (fun v hv => h v (List.mem_cons_of_mem u hv))

/-! ## Small parser equation and character-class lemmas -/

theorem eatLitCI_cons (l : Char) (ls : List Char) (c : Char) (cs : List Char) :
    eatLitCI (l :: ls) (c :: cs) = if c.toLower = l then eatLitCI ls cs else none := rfl

theorem eatPlus_cons (p : Char → Bool) (c : Char) (cs : List Char) :
    eatPlus p (c :: cs) = if p c then some (cs.dropWhile p) else none := rfl

theorem eatOne_cons (p : Char → Bool) (c : Char) (cs : List Char) :
    eatOne p (c :: cs) = if p c then some cs else none := rfl

theorem isDigitC_iff {c : Char} : isDigitC c = true ↔ 48 ≤ c.toNat ∧ c.toNat ≤ 57 := by
  rw [isDigitC]
  simp

theorem isDigitC_not_pySpace {c : Char} (h : isDigitC c = true) : pySpace c = false := by
  rcases hb : pySpace c with _ | _
  · rfl
  · rw [pySpace_iff] at hb
    rw [isDigitC_iff] at h
    omega

theorem digit_ne_lower {c l : Char} (h : isDigitC c = true) (hl : 96 < l.toNat) :
    ¬ c.toLower = l := by
  rw [char_eq_iff, toLower_toNat]
  rw [isDigitC_iff] at h
  split <;> omega

/-! ## Shared consequences of the level invariant -/

theorem classify_len_eq (units : List TextUnit) :
    (classify units).2.length = (classify units).1.length := by
  have h := congrArg List.length (classify_map_fst units)
  simpa using h.symm

theorem classify_level_eq (units : List TextUnit) (i : Nat)
    (hb : i < (classify units).2.length) (hh : i < (classify units).1.length) :
    ((classify units).2[i]).1 = ((classify units).1[i]).1 := by
  have hmap := classify_map_fst units
  have e1 : ((classify units).2.map Prod.fst)[i]? = some ((classify units).2[i]).1 := by
    rw [List.getElem?_map, List.getElem?_eq_getElem hb]
    rfl
  have e2 : ((classify units).1.map Prod.fst)[i]? = some ((classify units).1[i]).1 := by
    rw [List.getElem?_map, List.getElem?_eq_getElem hh]
    rfl
  have : some ((classify units).2[i]).1 = some ((classify units).1[i]).1 := by
    rw [← e1, ← e2, hmap]
  exact Option.some.inj this

/-! ## Claim theorems: the classifier -/

/-- C1: on the style-hint-free input `["1. Overview", "Some body text.",
"1.1 Details", "More text."]` the classifier yields headings
`[(Section, "1. Overview"), (Chapter, "1.1 Details")]` and blocks
`[(Section, ["Some body text."]), (Chapter, ["More text."])]`. -/
theorem numbered_input_trace :
    classify [⟨"1. Overview", ""⟩, ⟨"Some body text.", ""⟩,
      ⟨"1.1 Details", ""⟩, ⟨"More text.", ""⟩] =
      ([(1, "1. Overview"), (2, "1.1 Details")],
       [(1, ["Some body text."]), (2, ["More text."])]) := by decide

/-- C2: for the two style-hinted headings with no body text, two headings
come out and the final (empty) buffer is flushed as an empty-paragraph block
for the second heading; in general, at end of input the final buffer is
flushed — even if empty — whenever a current level is active. -/
theorem final_flush_unconditional :
    (classify [⟨"Random Title", "Heading 1"⟩, ⟨"Subtitle", "Heading 2"⟩] =
      ([(1, "Random Title"), (2, "Subtitle")], [(1, []), (2, [])])) ∧
    ∀ (units : List TextUnit) (l : Nat),
      (units.foldl stepUnit initSt).currLevel = some l →
      (classify units).2 =
        (units.foldl stepUnit initSt).blocks ++
          [(l, (units.foldl stepUnit initSt).currBuf)] := by
  refine ⟨by decide, ?_⟩
  intro units l h
  show (flushSt (units.foldl stepUnit initSt)).blocks = _
  rw [flushSt_some h]

theorem final_flush_unconditional_witness :
    ([(⟨"Random Title", "Heading 1"⟩ : TextUnit)].foldl stepUnit initSt).currLevel = some 1 ∧
    (classify [(⟨"Random Title", "Heading 1"⟩ : TextUnit)]).2 =
      ([(⟨"Random Title", "Heading 1"⟩ : TextUnit)].foldl stepUnit initSt).blocks ++
        [(1, ([(⟨"Random Title", "Heading 1"⟩ : TextUnit)].foldl stepUnit initSt).currBuf)] :=
  ⟨by decide, final_flush_unconditional.2 [⟨"Random Title", "Heading 1"⟩] 1 (by decide)⟩

/-- C5: always `len(blocks) ≤ len(headings)`, and every block's level equals
the level of the heading immediately preceding it in document order (block
`i` is owned by heading `i`). -/
theorem block_level_matches_heading :
    ∀ units : List TextUnit,
      (classify units).2.length ≤ (classify units).1.length ∧
      ∀ i (hb : i < (classify units).2.length) (hh : i < (classify units).1.length),
        ((classify units).2[i]).1 = ((classify units).1[i]).1 :=
  fun units => ⟨Nat.le_of_eq (classify_len_eq units), fun i hb hh => classify_level_eq units i hb hh⟩

theorem block_level_matches_heading_witness :
    0 < (classify [(⟨"1. A", ""⟩ : TextUnit), (⟨"body", ""⟩ : TextUnit)]).2.length ∧
    ((classify [(⟨"1. A", ""⟩ : TextUnit), (⟨"body", ""⟩ : TextUnit)]).2.get ⟨0, by decide⟩).1 =
      ((classify [(⟨"1. A", ""⟩ : TextUnit), (⟨"body", ""⟩ : TextUnit)]).1.get ⟨0, by decide⟩).1 :=
  ⟨by decide,
   (block_level_matches_heading [⟨"1. A", ""⟩, ⟨"body", ""⟩]).2 0 (by decide) (by decide)⟩

/-- C10 (implicit invariant used by the builders): the classifier emits
exactly one block per heading — `len(blocks) = len(headings)` — and block
`i` carries the level of heading `i`. -/
theorem blocks_pair_headings :
    ∀ units : List TextUnit,
      (classify units).2.length = (classify units).1.length ∧
      (classify units).2.map Prod.fst = (classify units).1.map Prod.fst ∧
      ∀ i (hb : i < (classify units).2.length) (hh : i < (classify units).1.length),
        ((classify units).2[i]).1 = ((classify units).1[i]).1 :=
  fun units => ⟨classify_len_eq units, (classify_map_fst units).symm,
    fun i hb hh => classify_level_eq units i hb hh⟩

theorem blocks_pair_headings_witness :
    0 < (classify [(⟨"Heading  ", "Heading 1"⟩ : TextUnit)]).2.length ∧
    ((classify [(⟨"Heading  ", "Heading 1"⟩ : TextUnit)]).2.get ⟨0, by decide⟩).1 =
      ((classify [(⟨"Heading  ", "Heading 1"⟩ : TextUnit)]).1.get ⟨0, by decide⟩).1 :=
  ⟨by decide, (blocks_pair_headings [⟨"Heading  ", "Heading 1"⟩]).2.2 0 (by decide) (by decide)⟩

/-- C9: when the first non-blank unit is body text the classifier first
appends the implicit `(Section, "SECTION I — INTRODUCTION")` heading; in
particular `["Just a line."]` gives that heading owning the line. -/
theorem implicit_leading_heading :
    (classify [(⟨"Just a line.", ""⟩ : TextUnit)] =
      ([(1, "SECTION I — INTRODUCTION")], [(1, ["Just a line."])])) ∧
    ∀ (pre : List TextUnit) (u : TextUnit) (rest : List TextUnit),
      (∀ v ∈ pre, stripOf v = "") → stripOf u ≠ "" →
      detectLevel u.styleHint (stripOf u) = none →
      (classify (pre ++ u :: rest)).1.head? = some (1, "SECTION I — INTRODUCTION") := by
  refine ⟨by decide, ?_⟩
  intro pre u rest hpre hu hdet
  have h1 : (pre ++ u :: rest).foldl stepUnit initSt =
      rest.foldl stepUnit (stepUnit initSt u) := by
    rw [List.foldl_append, foldl_blank initSt hpre, List.foldl_cons]
  have h2 : stepUnit initSt u = { initSt with currLevel := some 1, headings := [(1, "SECTION I — INTRODUCTION")], currBuf := [stripOf u] } := by
    rw [stepUnit_body_first initSt hu hdet rfl]
    rfl
  obtain ⟨d, hd⟩ := foldl_headings rest (stepUnit initSt u)
  show (flushSt ((pre ++ u :: rest).foldl stepUnit initSt)).headings.head? = _
  rw [flushSt_headings, h1, hd, h2]
  rfl

theorem implicit_leading_heading_witness :
    stripOf (⟨"Just a line.", ""⟩ : TextUnit) ≠ "" ∧
    detectLevel "" (stripOf (⟨"Just a line.", ""⟩ : TextUnit)) = none ∧
    (classify ([] ++ (⟨"Just a line.", ""⟩ : TextUnit) :: [])).1.head? =
      some (1, "SECTION I — INTRODUCTION") :=
  ⟨by decide, by decide,
   implicit_leading_heading.2 [] ⟨"Just a line.", ""⟩ []
     (fun v hv => absurd hv (List.not_mem_nil v)) (by decide) (by decide)⟩

/-- C7: recognised style names classify by style alone — level 1 for
`Heading 1`/`Titolo 1`, level 2 for `Heading 2`/`Titolo 2`, whatever the
text — while any other style name falls through to the text patterns. -/
theorem style_hint_precedence :
    (∀ t : String, detectLevel "Heading 1" t = some 1) ∧
    (∀ t : String, detectLevel "Titolo 1" t = some 1) ∧
    (∀ t : String, detectLevel "Heading 2" t = some 2) ∧
    (∀ t : String, detectLevel "Titolo 2" t = some 2) ∧
    ∀ (s t : String),
      s ≠ "Heading 1" → s ≠ "Titolo 1" → s ≠ "Heading 2" → s ≠ "Titolo 2" →
      detectLevel s t =
        (if secPat t.data || h1Pat t.data then some 1
         else if chPat t.data || h2Pat t.data then some 2
         else none) := by
  refine ⟨?_, ?_, ?_, ?_, ?_⟩
  · intro t; rw [detectLevel, if_pos (Or.inl rfl)]
  · intro t; rw [detectLevel, if_pos (Or.inr rfl)]
  · intro t; rw [detectLevel, if_neg (by decide), if_pos (Or.inl rfl)]
  · intro t; rw [detectLevel, if_neg (by decide), if_pos (Or.inr rfl)]
  · intro s t h1 h2 h3 h4
    rw [detectLevel, if_neg (by simp [h1, h2]), if_neg (by simp [h3, h4])]

theorem style_hint_precedence_witness :
    ("Body Text" : String) ≠ "Heading 1" ∧
    detectLevel "Body Text" "1.1 Nested" =
      (if secPat "1.1 Nested".data || h1Pat "1.1 Nested".data then some 1
       else if chPat "1.1 Nested".data || h2Pat "1.1 Nested".data then some 2
       else none) :=
  ⟨by decide, style_hint_precedence.2.2.2.2 "Body Text" "1.1 Nested"
    (by decide) (by decide) (by decide) (by decide)⟩

/-- C8: the numeric heading patterns tolerate leading whitespace but demand
at least one whitespace character between the numeric prefix and the title:
prefixing whitespace never changes the match, while `digits`, `.`, then
non-whitespace title text (no space after the dot) never classifies as a
heading and is buffered as body text. -/
theorem no_space_after_dot_not_heading :
    (∀ (ws s : List Char), (∀ c ∈ ws, pySpace c = true) →
      h1Pat (ws ++ s) = h1Pat s ∧ h2Pat (ws ++ s) = h2Pat s) ∧
    (∀ (ds : List Char) (x : Char) (r : List Char) (style : String),
      ds ≠ [] → (∀ c ∈ ds, isDigitC c = true) → pySpace x = false → isDigitC x = false →
      style ≠ "Heading 1" → style ≠ "Titolo 1" → style ≠ "Heading 2" → style ≠ "Titolo 2" →
      detectLevel style (String.mk (ds ++ '.' :: x :: r)) = none) ∧
    classify [(⟨"1.Title", ""⟩ : TextUnit)] =
      ([(1, "SECTION I — INTRODUCTION")], [(1, ["1.Title"])]) := by
  refine ⟨?_, ?_, by decide⟩
  · intro ws s hws
    constructor
    · rw [h1Pat, h1Pat, List.dropWhile_append_of_pos hws]
    · rw [h2Pat, h2Pat, List.dropWhile_append_of_pos hws]
  · intro ds x r style hne hds hxs hxd h1 h2 h3 h4
    rcases ds with _ | ⟨d0, ds'⟩
    · exact absurd rfl hne
    have hd0 : isDigitC d0 = true := hds d0 (List.mem_cons_self _ _)
    have hds' : ∀ c ∈ ds', isDigitC c = true := fun c hc => hds c (List.mem_cons_of_mem _ hc)
    have hd0sp : pySpace d0 = false := isDigitC_not_pySpace hd0
    have hdrop : ((d0 :: ds') ++ '.' :: x :: r).dropWhile pySpace = (d0 :: ds') ++ '.' :: x :: r := by
      rw [List.cons_append]
      exact List.dropWhile_cons_of_neg (by simp [hd0sp])
    have hdig : (ds' ++ '.' :: x :: r).dropWhile isDigitC = '.' :: x :: r := by
      rw [List.dropWhile_append_of_pos hds']
      exact List.dropWhile_cons_of_neg (by decide)
    have hsec : secPat ((d0 :: ds') ++ '.' :: x :: r) = false := by
      rw [secPat, hdrop, List.cons_append,
        show "section".data = 's' :: "ection".data from rfl, eatLitCI_cons,
        if_neg (digit_ne_lower hd0 (by decide))]
    have hch : chPat ((d0 :: ds') ++ '.' :: x :: r) = false := by
      rw [chPat, hdrop, List.cons_append,
        show "chapter".data = 'c' :: "hapter".data from rfl, eatLitCI_cons,
        if_neg (digit_ne_lower hd0 (by decide))]
    have hh1 : h1Pat ((d0 :: ds') ++ '.' :: x :: r) = false := by
      rw [h1Pat, hdrop, List.cons_append, eatPlus_cons, if_pos hd0, hdig]
      show (match eatOne (fun c => c == '.') ('.' :: x :: r) with
            | none => false
            | some r2 =>
              match eatPlus pySpace r2 with
              | none => false
              | some r3 => !r3.isEmpty) = false
      rw [eatOne_cons, if_pos (by decide)]
      show (match eatPlus pySpace (x :: r) with
            | none => false
            | some r3 => !r3.isEmpty) = false
      rw [eatPlus_cons, if_neg (by simp [hxs])]
    have hh2 : h2Pat ((d0 :: ds') ++ '.' :: x :: r) = false := by
      rw [h2Pat, hdrop, List.cons_append, eatPlus_cons, if_pos hd0, hdig]
      show (match eatOne (fun c => c == '.') ('.' :: x :: r) with
            | none => false
            | some r2 =>
              match eatPlus isDigitC r2 with
              | none => false
              | some r3 =>
                match eatPlus pySpace r3 with
                | none => false
                | some r4 => !r4.isEmpty) = false
      rw [eatOne_cons, if_pos (by decide)]
      show (match eatPlus isDigitC (x :: r) with
            | none => false
            | some r3 =>
              match eatPlus pySpace r3 with
              | none => false
              | some r4 => !r4.isEmpty) = false
      rw [eatPlus_cons, if_neg (by simp [hxd])]
    rw [detectLevel, if_neg (by simp [h1, h2]), if_neg (by simp [h3, h4])]
    rw [show (String.mk ((d0 :: ds') ++ '.' :: x :: r)).data = (d0 :: ds') ++ '.' :: x :: r from rfl]
    rw [List.cons_append] at hsec hch hh1 hh2
    simp [hsec, hch, hh1, hh2]

theorem no_space_after_dot_not_heading_witness :
    (['1'] : List Char) ≠ [] ∧ pySpace 'T' = false ∧
    detectLevel "" (String.mk (['1'] ++ '.' :: 'T' :: "itle".data)) = none :=
  ⟨by decide, by decide,
   no_space_after_dot_not_heading.2.1 ['1'] 'T' "itle".data ""
     (by decide) (by decide) (by decide) (by decide)
     (by decide) (by decide) (by decide) (by decide)⟩

/-- C3 (code bug): `clean_structure` maps the chapter title
`"introduction to AI and the API"` to `"Introduction To Ai And The Api"` —
the acronym-restoring substitution is case-sensitive and runs after
title-casing has already produced `Ai`/`Api`, so it can never fire, and the
acronyms are not preserved as the spec (and the code's own comment,
`Capitalizza ma lascia acronimi maiuscoli`) require. -/
theorem acronym_restoration_dead :
    clean_structure [(2, "introduction to AI and the API")] [] =
      ([(2, "CHAPTER 1 — Introduction To Ai And The Api")], []) ∧
    (clean_structure [(2, "introduction to AI and the API")] []).1 ≠
      [(2, "CHAPTER 1 — Introduction To AI And The API")] :=
  ⟨by decide, by decide⟩

/-! ## C4: section renumbering -/

/-- The texts of the Section (level-1) entries, in document order. -/
def sectionTexts (l : List HeadingItem) : List String :=
  (l.filter (fun h => h.1 == 1)).map Prod.snd

/-- What the section branch of `clean_structure` produces for consecutive
section counters starting at `k`. -/
def sectionStamp (k : Nat) : List String → List String
  | [] => []
  | t :: ts => String.mk (cleanSectionText k t.data) :: sectionStamp (k + 1) ts

theorem cleanHeadings_cons_sec (s c : Nat) (text : String) (rest : List HeadingItem) :
    cleanHeadings s c ((1, text) :: rest) =
      (1, String.mk (cleanSectionText (s + 1) text.data)) :: cleanHeadings (s + 1) c rest := by
  rw [cleanHeadings, if_pos rfl]

theorem cleanHeadings_cons_nonsec {level : Nat} (hl : level ≠ 1) (s c : Nat) (text : String)
    (rest : List HeadingItem) :
    cleanHeadings s c ((level, text) :: rest) =
      (level, String.mk (cleanChapterText (c + 1) text.data)) :: cleanHeadings s (c + 1) rest := by
  rw [cleanHeadings, if_neg hl]

theorem sectionTexts_cons_sec (text : String) (rest : List HeadingItem) :
    sectionTexts ((1, text) :: rest) = text :: sectionTexts rest := by
  rw [sectionTexts, List.filter_cons_of_pos (by simp), List.map_cons]
  rfl

theorem sectionTexts_cons_nonsec {level : Nat} (hl : level ≠ 1) (text : String)
    (rest : List HeadingItem) :
    sectionTexts ((level, text) :: rest) = sectionTexts rest := by
  rw [sectionTexts, List.filter_cons_of_neg (by simpa using hl)]
  rfl

theorem sectionTexts_cleanHeadings :
    ∀ (hs : List HeadingItem) (s c : Nat),
      sectionTexts (cleanHeadings s c hs) = sectionStamp (s + 1) (sectionTexts hs) := by
  intro hs
  induction hs with
  | nil => intro s c; rfl
  | cons h rest ih =>
    intro s c
    obtain ⟨level, text⟩ := h
    by_cases hl : level = 1
    · subst hl
      rw [cleanHeadings_cons_sec, sectionTexts_cons_sec, sectionTexts_cons_sec, sectionStamp,
        ih (s + 1) c]
    · rw [cleanHeadings_cons_nonsec hl, sectionTexts_cons_nonsec hl, sectionTexts_cons_nonsec hl,
        ih s (c + 1)]

theorem cleanSectionText_eq (k : Nat) (P : String) (x : List Char)
    (hP : P.data = "SECTION ".data ++ (_roman k).data ++ " — ".data) :
    String.mk (cleanSectionText k x) =
      P ++ String.mk ((secTitleRaw (pyNorm x)).map Char.toUpper) := by
  apply String.ext
  rw [String.data_append, hP]
  rw [show (String.mk (cleanSectionText k x)).data = cleanSectionText k x from rfl]
  rw [cleanSectionText]

/-- C4: the normalizer renumbers Section entries with sequential roman
numerals in document order, ignoring the original numbering; in particular,
with exactly two Section headings the normalized section texts are
`SECTION I — …` and `SECTION II — …` in that order. -/
theorem section_renumbering :
    (∀ (hs : List HeadingItem) (bs : List ContentBlock),
      sectionTexts (clean_structure hs bs).1 = sectionStamp 1 (sectionTexts hs)) ∧
    ∀ (hs : List HeadingItem) (bs : List ContentBlock) (t1 t2 : String),
      sectionTexts hs = [t1, t2] →
      ∃ u1 u2 : String,
        sectionTexts (clean_structure hs bs).1 =
          ["SECTION I — " ++ u1, "SECTION II — " ++ u2] := by
  constructor
  · intro hs bs
    exact sectionTexts_cleanHeadings hs 0 0
  · intro hs bs t1 t2 hsec
    refine ⟨String.mk ((secTitleRaw (pyNorm t1.data)).map Char.toUpper),
            String.mk ((secTitleRaw (pyNorm t2.data)).map Char.toUpper), ?_⟩
    have h := sectionTexts_cleanHeadings hs 0 0
    rw [hsec] at h
    rw [show (clean_structure hs bs).1 = cleanHeadings 0 0 hs from rfl, h]
    rw [sectionStamp, sectionStamp, sectionStamp]
    have e2 : (1 : Nat) + 1 = 2 := rfl
    rw [e2]
    rw [cleanSectionText_eq 1 "SECTION I — " t1.data (by decide),
        cleanSectionText_eq 2 "SECTION II — " t2.data (by decide)]

theorem section_renumbering_witness :
    sectionTexts [((1, "3. alpha") : HeadingItem), (2, "1.1 b"), (1, "9. beta")] =
      ["3. alpha", "9. beta"] ∧
    ∃ u1 u2 : String,
      sectionTexts (clean_structure
          [((1, "3. alpha") : HeadingItem), (2, "1.1 b"), (1, "9. beta")] []).1 =
        ["SECTION I — " ++ u1, "SECTION II — " ++ u2] :=
  ⟨by decide,
   section_renumbering.2 [(1, "3. alpha"), (2, "1.1 b"), (1, "9. beta")] []
     "3. alpha" "9. beta" (by decide)⟩

/-! ## C6 groundwork: the derived titles are canonical suffixes -/

theorem takeWhile_all {p : Char → Bool} {l : List Char} (h : ∀ c ∈ l, p c = true) :
    l.takeWhile p = l := by
  induction l with
  | nil => rfl
  | cons a t ih =>
    rw [List.takeWhile_cons, if_pos (h a (List.mem_cons_self a t))]
    rw [ih (fun c hc => h c (List.mem_cons_of_mem a hc))]

theorem eatLitCI_suffix :
    ∀ {lit s r : List Char}, eatLitCI lit s = some r → r <:+ s := by
  intro lit
  induction lit with
  | nil =>
    intro s r h
    rw [show eatLitCI [] s = some s from rfl, Option.some.injEq] at h
    rw [← h]
  | cons l ls ih =>
    intro s r h
    rcases s with _ | ⟨c, cs⟩
    · exact absurd h (by rw [show eatLitCI (l :: ls) [] = none from rfl]; simp)
    · rw [eatLitCI_cons] at h
      by_cases hc : c.toLower = l
      · rw [if_pos hc] at h
        exact (ih h).trans (List.suffix_cons c cs)
      · rw [if_neg hc] at h
        simp at h

theorem eatPlus_suffix {p : Char → Bool} :
    ∀ {s r : List Char}, eatPlus p s = some r → r <:+ s := by
  intro s r h
  rcases s with _ | ⟨c, cs⟩
  · exact absurd h (by rw [show eatPlus p [] = none from rfl]; simp)
  · rw [eatPlus_cons] at h
    by_cases hc : p c
    · rw [if_pos hc, Option.some.injEq] at h
      rw [← h]
      exact (List.dropWhile_suffix p).trans (List.suffix_cons c cs)
    · rw [if_neg hc] at h
      simp at h

theorem eatOne_suffix {p : Char → Bool} :
    ∀ {s r : List Char}, eatOne p s = some r → r <:+ s := by
  intro s r h
  rcases s with _ | ⟨c, cs⟩
  · exact absurd h (by rw [show eatOne p [] = none from rfl]; simp)
  · rw [eatOne_cons] at h
    by_cases hc : p c
    · rw [if_pos hc, Option.some.injEq] at h
      rw [← h]
      exact List.suffix_cons c cs
    · rw [if_neg hc] at h
      simp at h

theorem no_nl_mem {l : List Char} (hall : AllSp l) {c : Char} (hc : c ∈ l) : (c != '\n') = true := by
  rcases hb : c == '\n' with _ | _
  · simp [bne, hb]
  · rw [beq_iff_eq] at hb
    subst hb
    exact absurd (hall _ hc (by decide)) (by decide)

/-- A successful `secGroupAt` returns a non-empty suffix whose head is not
whitespace (given that the scanned text has no exotic whitespace). -/
theorem secGroupAt_suffix {s g : List Char} (hall : AllSp s) (h : secGroupAt s = some g) :
    g <:+ s ∧ g ≠ [] ∧ ∀ y, g.head? = some y → pySpace y = false := by
  rw [secGroupAt] at h
  split at h
  · exact absurd h (by simp)
  rename_i r1 h1
  split at h
  · exact absurd h (by simp)
  rename_i r2 h2
  split at h
  · exact absurd h (by simp)
  rename_i r3 h3
  split at h
  · exact absurd h (by simp)
  rename_i r4 h4
  rw [show (let r5 := List.dropWhile pySpace r4;
      if r5.isEmpty = true then none
      else some (List.takeWhile (fun c => c != '\n') r5)) =
    (if (List.dropWhile pySpace r4).isEmpty = true then none
     else some (List.takeWhile (fun c => c != '\n') (List.dropWhile pySpace r4))) from rfl] at h
  by_cases h5 : (List.dropWhile pySpace r4).isEmpty = true
  · rw [if_pos h5] at h
    exact absurd h (by simp)
  rw [if_neg h5] at h
  rw [Option.some.injEq] at h
  have hsuf : r4.dropWhile pySpace <:+ s :=
    ((List.dropWhile_suffix pySpace).trans (eatOne_suffix h4)).trans
      (((List.dropWhile_suffix pySpace).trans (eatPlus_suffix h3)).trans
        ((eatPlus_suffix h2).trans (eatLitCI_suffix h1)))
  have hall5 : AllSp (r4.dropWhile pySpace) := AllSp_sub hsuf.subset hall
  have htw : (r4.dropWhile pySpace).takeWhile (fun c => c != '\n') = r4.dropWhile pySpace :=
    takeWhile_all (fun c hc => no_nl_mem hall5 hc)
  rw [htw] at h
  subst h
  refine ⟨hsuf, by simpa using h5, ?_⟩
  intro y hy
  have hnot := List.head?_dropWhile_not pySpace r4
  rw [hy] at hnot
  exact hnot

theorem chGroupAt_suffix {s g : List Char} (hall : AllSp s) (h : chGroupAt s = some g) :
    g <:+ s ∧ g ≠ [] ∧ ∀ y, g.head? = some y → pySpace y = false := by
  rw [chGroupAt] at h
  split at h
  · exact absurd h (by simp)
  rename_i r1 h1
  split at h
  · exact absurd h (by simp)
  rename_i r2 h2
  split at h
  · exact absurd h (by simp)
  rename_i r3 h3
  split at h
  · exact absurd h (by simp)
  rename_i r4 h4
  rw [show (let r5 := List.dropWhile pySpace r4;
      if r5.isEmpty = true then none
      else some (List.takeWhile (fun c => c != '\n') r5)) =
    (if (List.dropWhile pySpace r4).isEmpty = true then none
     else some (List.takeWhile (fun c => c != '\n') (List.dropWhile pySpace r4))) from rfl] at h
  by_cases h5 : (List.dropWhile pySpace r4).isEmpty = true
  · rw [if_pos h5] at h
    exact absurd h (by simp)
  rw [if_neg h5] at h
  rw [Option.some.injEq] at h
  have hsuf : r4.dropWhile pySpace <:+ s :=
    ((List.dropWhile_suffix pySpace).trans (eatOne_suffix h4)).trans
      (((List.dropWhile_suffix pySpace).trans (eatPlus_suffix h3)).trans
        ((eatPlus_suffix h2).trans (eatLitCI_suffix h1)))
  have hall5 : AllSp (r4.dropWhile pySpace) := AllSp_sub hsuf.subset hall
  have htw : (r4.dropWhile pySpace).takeWhile (fun c => c != '\n') = r4.dropWhile pySpace :=
    takeWhile_all (fun c hc => no_nl_mem hall5 hc)
  rw [htw] at h
  subst h
  refine ⟨hsuf, by simpa using h5, ?_⟩
  intro y hy
  have hnot := List.head?_dropWhile_not pySpace r4
  rw [hy] at hnot
  exact hnot

theorem searchFrom_suffix {F : List Char → Option (List Char)}
    (hF : ∀ {s' g : List Char}, AllSp s' → F s' = some g →
      g <:+ s' ∧ g ≠ [] ∧ ∀ y, g.head? = some y → pySpace y = false) :
    ∀ {s g : List Char}, AllSp s → searchFrom F s = some g →
      g <:+ s ∧ g ≠ [] ∧ ∀ y, g.head? = some y → pySpace y = false := by
  intro s
  induction s with
  | nil => intro g _ h; exact absurd h (by rw [show searchFrom F [] = none from rfl]; simp)
  | cons c cs ih =>
    intro g hall h
    rw [show searchFrom F (c :: cs) =
      (match F (c :: cs) with | some g => some g | none => searchFrom F cs) from rfl] at h
    rcases hf : F (c :: cs) with _ | g'
    · rw [hf] at h
      have htail := ih (fun y hy hsp => hall y (List.mem_cons_of_mem c hy) hsp) h
      exact ⟨htail.1.trans (List.suffix_cons c cs), htail.2⟩
    · rw [hf] at h
      rw [Option.some.injEq] at h
      subst h
      exact hF hall hf

theorem subNum_cons (c : Char) (rest : List Char) :
    subNum (c :: rest) =
      if isDigitC c then
        (match rest.dropWhile isDigitC with
         | [] => c :: rest
         | d :: r => if d = '.' then r.dropWhile pySpace else c :: rest)
      else c :: rest := rfl

theorem subNum_dot {c d : Char} {rest r : List Char} (hc : isDigitC c = true)
    (hm : rest.dropWhile isDigitC = d :: r) (hd : d = '.') :
    subNum (c :: rest) = r.dropWhile pySpace := by
  rw [subNum_cons, if_pos hc, hm]
  show (if d = '.' then r.dropWhile pySpace else c :: rest) = _
  rw [if_pos hd]

theorem subNum_not_dot {c d : Char} {rest r : List Char} (hc : isDigitC c = true)
    (hm : rest.dropWhile isDigitC = d :: r) (hd : ¬ d = '.') :
    subNum (c :: rest) = c :: rest := by
  rw [subNum_cons, if_pos hc, hm]
  show (if d = '.' then r.dropWhile pySpace else c :: rest) = _
  rw [if_neg hd]

theorem subNum_cases (s : List Char) :
    subNum s = s ∨ (subNum s <:+ s ∧ ∀ y, (subNum s).head? = some y → pySpace y = false) := by
  rcases s with _ | ⟨c, rest⟩
  · exact Or.inl rfl
  by_cases hc : isDigitC c
  · rcases hm : rest.dropWhile isDigitC with _ | ⟨d, r⟩
    · rw [subNum_cons, if_pos hc, hm]
      exact Or.inl rfl
    · by_cases hd : d = '.'
      · right
        rw [subNum_dot hc hm hd]
        constructor
        · refine ((List.dropWhile_suffix pySpace).trans (List.suffix_cons d r)).trans ?_
          rw [← hm]
          exact (List.dropWhile_suffix isDigitC).trans (List.suffix_cons c rest)
        · intro y hy
          have hnot := List.head?_dropWhile_not pySpace r
          rw [hy] at hnot
          exact hnot
      · rw [subNum_not_dot hc hm hd]
        exact Or.inl rfl
  · rw [subNum_cons, if_neg hc]
    exact Or.inl rfl

theorem subNumNum_cons (c : Char) (rest : List Char) :
    subNumNum (c :: rest) =
      if isDigitC c then
        (match rest.dropWhile isDigitC with
         | [] => c :: rest
         | d :: r =>
           if d = '.' then
             (match r with
              | [] => c :: rest
              | e :: r2 => if isDigitC e then (r2.dropWhile isDigitC).dropWhile pySpace
                           else c :: rest)
           else c :: rest)
      else c :: rest := rfl

theorem subNumNum_digits {c d e : Char} {rest r2 : List Char} (hc : isDigitC c = true)
    (hm : rest.dropWhile isDigitC = d :: e :: r2) (hd : d = '.') (he : isDigitC e = true) :
    subNumNum (c :: rest) = (r2.dropWhile isDigitC).dropWhile pySpace := by
  rw [subNumNum_cons, if_pos hc]
  simp only [hm]
  rw [if_pos hd, if_pos he]

theorem subNumNum_eq_self {c : Char} {rest : List Char} :
    subNumNum (c :: rest) = c :: rest ∨
      ∃ d e r2, rest.dropWhile isDigitC = d :: e :: r2 ∧ isDigitC c = true ∧ d = '.' ∧
        isDigitC e = true := by
  by_cases hc : isDigitC c
  · rcases hm : rest.dropWhile isDigitC with _ | ⟨d, r⟩
    · left
      rw [subNumNum_cons, if_pos hc]
      simp only [hm]
    · by_cases hd : d = '.'
      · rcases hr : r with _ | ⟨e, r2⟩
        · subst hr
          left
          rw [subNumNum_cons, if_pos hc]
          simp only [hm]
          rw [if_pos hd]
        · subst hr
          by_cases he : isDigitC e
          · exact Or.inr ⟨d, e, r2, rfl, hc, hd, he⟩
          · left
            rw [subNumNum_cons, if_pos hc]
            simp only [hm]
            rw [if_pos hd, if_neg he]
      · left
        rw [subNumNum_cons, if_pos hc]
        simp only [hm]
        rcases r with _ | ⟨e, r2⟩
        · rw [if_neg hd]
        · rw [if_neg hd]
  · left
    rw [subNumNum_cons, if_neg hc]

theorem subNumNum_cases (s : List Char) :
    subNumNum s = s ∨
      (subNumNum s <:+ s ∧ ∀ y, (subNumNum s).head? = some y → pySpace y = false) := by
  rcases s with _ | ⟨c, rest⟩
  · exact Or.inl rfl
  rcases @subNumNum_eq_self c rest with he | ⟨d, e, r2, hm, hc, hd, hdig⟩
  · exact Or.inl he
  right
  rw [subNumNum_digits hc hm hd hdig]
  constructor
  · refine ((List.dropWhile_suffix pySpace).trans (List.dropWhile_suffix isDigitC)).trans ?_
    refine ((List.suffix_cons e r2).trans ((List.suffix_cons d (e :: r2)).trans ?_))
    rw [← hm]
    exact (List.dropWhile_suffix isDigitC).trans (List.suffix_cons c rest)
  · intro y hy
    have hnot := List.head?_dropWhile_not pySpace (r2.dropWhile isDigitC)
    rw [hy] at hnot
    exact hnot

theorem canon_secTitleRaw {x : List Char} (hne : secTitleRaw (pyNorm x) ≠ []) :
    Canon (secTitleRaw (pyNorm x)) := by
  have hall := AllSp_pyNorm x
  have hdbl := NoDbl_pyNorm x
  have hlast : ∀ y, (pyNorm x).getLast? = some y → y ≠ ' ' ∧ y ≠ '.' :=
    fun y hy => pyNorm_last hy
  have hdash := not_dash_pyNorm x
  have hhead : ∀ y, (pyNorm x).head? = some y → pySpace y = false :=
    fun y hy => pyNorm_head hy
  rcases hs : searchSec (pyNorm x) with _ | g
  · have hrw : secTitleRaw (pyNorm x) = subNum (pyNorm x) := by rw [secTitleRaw, hs]
    rw [hrw] at hne ⊢
    rcases subNum_cases (pyNorm x) with he | ⟨hsuf, hh⟩
    · rw [he] at hne ⊢
      exact ⟨hne, hall, hdbl, hhead, hlast, hdash⟩
    · obtain ⟨pre, hpre⟩ := hsuf
      exact canon_of_suffix hpre.symm hne hh hall hdbl hlast hdash
  · have hrw : secTitleRaw (pyNorm x) = g := by rw [secTitleRaw, hs]
    rw [hrw] at hne ⊢
    obtain ⟨hsuf, hgne, hh⟩ :=
      searchFrom_suffix (fun hall' h' => secGroupAt_suffix hall' h') hall hs
    obtain ⟨pre, hpre⟩ := hsuf
    exact canon_of_suffix hpre.symm hgne hh hall hdbl hlast hdash

theorem canon_chTitleRaw {x : List Char} (hne : chTitleRaw (pyNorm x) ≠ []) :
    Canon (chTitleRaw (pyNorm x)) := by
  have hall := AllSp_pyNorm x
  have hdbl := NoDbl_pyNorm x
  have hlast : ∀ y, (pyNorm x).getLast? = some y → y ≠ ' ' ∧ y ≠ '.' :=
    fun y hy => pyNorm_last hy
  have hdash := not_dash_pyNorm x
  have hhead : ∀ y, (pyNorm x).head? = some y → pySpace y = false :=
    fun y hy => pyNorm_head hy
  rcases hs : searchCh (pyNorm x) with _ | g
  · have hrw : chTitleRaw (pyNorm x) = subNumNum (pyNorm x) := by rw [chTitleRaw, hs]
    rw [hrw] at hne ⊢
    rcases subNumNum_cases (pyNorm x) with he | ⟨hsuf, hh⟩
    · rw [he] at hne ⊢
      exact ⟨hne, hall, hdbl, hhead, hlast, hdash⟩
    · obtain ⟨pre, hpre⟩ := hsuf
      exact canon_of_suffix hpre.symm hne hh hall hdbl hlast hdash
  · have hrw : chTitleRaw (pyNorm x) = g := by rw [chTitleRaw, hs]
    rw [hrw] at hne ⊢
    obtain ⟨hsuf, hgne, hh⟩ :=
      searchFrom_suffix (fun hall' h' => chGroupAt_suffix hall' h') hall hs
    obtain ⟨pre, hpre⟩ := hsuf
    exact canon_of_suffix hpre.symm hgne hh hall hdbl hlast hdash

/-! ## C6 groundwork: title-casing and the (dead) acronym pass -/

theorem isUpperC_iff {c : Char} : isUpperC c = true ↔ 65 ≤ c.toNat ∧ c.toNat ≤ 90 := by
  rw [isUpperC]
  simp

theorem isAlphaC_iff {c : Char} :
    isAlphaC c = true ↔ (65 ≤ c.toNat ∧ c.toNat ≤ 90) ∨ (97 ≤ c.toNat ∧ c.toNat ≤ 122) := by
  rw [isAlphaC, isUpperC, isLowerC]
  simp

theorem isAlphaC_toUpper (c : Char) : isAlphaC c.toUpper = isAlphaC c := by
  have key : isAlphaC c.toUpper = true ↔ isAlphaC c = true := by
    rw [isAlphaC_iff, isAlphaC_iff, toUpper_toNat]
    split <;> omega
  cases hu : isAlphaC c.toUpper <;> cases hc : isAlphaC c <;> simp_all

theorem isAlphaC_toLower (c : Char) : isAlphaC c.toLower = isAlphaC c := by
  have key : isAlphaC c.toLower = true ↔ isAlphaC c = true := by
    rw [isAlphaC_iff, isAlphaC_iff, toLower_toNat]
    split <;> omega
  cases hu : isAlphaC c.toLower <;> cases hc : isAlphaC c <;> simp_all

theorem isUpperC_toLower (c : Char) : isUpperC c.toLower = false := by
  rcases hb : isUpperC c.toLower with _ | _
  · rfl
  · rw [isUpperC_iff, toLower_toNat] at hb
    exfalso
    revert hb
    split <;> omega

theorem isUpperC_of_alpha_false {c : Char} (h : isAlphaC c = false) : isUpperC c = false := by
  rcases hb : isUpperC c with _ | _
  · rfl
  · rw [isAlphaC, hb] at h
    simp at h

theorem toUpper_eq_iff {c d : Char} (hd : isAlphaC d = false) : c.toUpper = d ↔ c = d := by
  have hd' : ¬ ((65 ≤ d.toNat ∧ d.toNat ≤ 90) ∨ (97 ≤ d.toNat ∧ d.toNat ≤ 122)) := by
    intro hcon
    rw [← isAlphaC_iff] at hcon
    rw [hd] at hcon
    exact absurd hcon (by simp)
  rw [char_eq_iff, char_eq_iff, toUpper_toNat]
  split <;> omega

theorem toLower_eq_iff {c d : Char} (hd : isAlphaC d = false) : c.toLower = d ↔ c = d := by
  have hd' : ¬ ((65 ≤ d.toNat ∧ d.toNat ≤ 90) ∨ (97 ≤ d.toNat ∧ d.toNat ≤ 122)) := by
    intro hcon
    rw [← isAlphaC_iff] at hcon
    rw [hd] at hcon
    exact absurd hcon (by simp)
  rw [char_eq_iff, char_eq_iff, toLower_toNat]
  split <;> omega

/-- A character of the title-cased output is the original, its upper-case,
or its lower-case version. -/
def caseRel (a b : Char) : Prop := b = a ∨ b = a.toUpper ∨ b = a.toLower

theorem caseRel_eq_iff {a b d : Char} (hrel : caseRel a b) (hd : isAlphaC d = false) :
    b = d ↔ a = d := by
  rcases hrel with h | h | h
  · rw [h]
  · rw [h]; exact toUpper_eq_iff hd
  · rw [h]; exact toLower_eq_iff hd

theorem caseRel_pySpace {a b : Char} (hrel : caseRel a b) : pySpace b = pySpace a := by
  rcases hrel with h | h | h
  · rw [h]
  · rw [h]; exact pySpace_toUpper a
  · rw [h]; exact pySpace_toLower a

theorem caseRel_space {a b : Char} (hrel : caseRel a b) : b = ' ' ↔ a = ' ' :=
  caseRel_eq_iff hrel (by decide)

theorem caseRel_dot {a b : Char} (hrel : caseRel a b) : b = '.' ↔ a = '.' :=
  caseRel_eq_iff hrel (by decide)

theorem caseRel_dash {a b : Char} (hrel : caseRel a b) : b = '—' ↔ a = '—' :=
  caseRel_eq_iff hrel (by decide)

theorem rel_head? {R : Char → Char → Prop} :
    ∀ {l m : List Char}, List.Forall₂ R l m → ∀ {y}, m.head? = some y →
      ∃ z, l.head? = some z ∧ R z y := by
  intro l m h
  cases h with
  | nil => intro y hy; simp at hy
  | cons hab ht =>
    intro y hy
    rw [List.head?_cons, Option.some.injEq] at hy
    exact ⟨_, rfl, hy ▸ hab⟩

theorem rel_getLast? {R : Char → Char → Prop} :
    ∀ {l m : List Char}, List.Forall₂ R l m → ∀ {y}, m.getLast? = some y →
      ∃ z, l.getLast? = some z ∧ R z y := by
  intro l m h
  induction h with
  | nil => intro y hy; simp at hy
  | @cons a b l' m' hab ht ih =>
    intro y hy
    cases ht with
    | nil =>
      rw [List.getLast?_singleton, Option.some.injEq] at hy
      exact ⟨a, by simp, hy ▸ hab⟩
    | @cons a2 b2 l2 m2 hab2 ht2 =>
      rw [List.getLast?_cons_cons] at hy
      obtain ⟨z, hz, hrz⟩ := ih hy
      exact ⟨z, by rw [List.getLast?_cons_cons]; exact hz, hrz⟩

theorem rel_mem {R : Char → Char → Prop} :
    ∀ {l m : List Char}, List.Forall₂ R l m → ∀ {y}, y ∈ m → ∃ z ∈ l, R z y := by
  intro l m h
  induction h with
  | nil => intro y hy; simp at hy
  | @cons a b l' m' hab ht ih =>
    intro y hy
    rcases List.mem_cons.mp hy with h1 | h1
    · exact ⟨a, List.mem_cons_self a l', h1 ▸ hab⟩
    · obtain ⟨z, hz, hrz⟩ := ih h1
      exact ⟨z, List.mem_cons_of_mem a hz, hrz⟩

theorem noDbl_rel : ∀ {l m : List Char}, List.Forall₂ caseRel l m → NoDbl l → NoDbl m := by
  intro l m hrel
  induction hrel with
  | nil => intro _; exact List.chain'_nil
  | @cons a b l' m' hab ht ih =>
    intro hnd
    rw [NoDbl, List.chain'_cons']
    rw [NoDbl] at hnd
    refine ⟨?_, ?_⟩
    · intro y hy hcon
      obtain ⟨z, hz, hrz⟩ := rel_head? ht (Option.mem_def.mp hy)
      have ha : a = ' ' := (caseRel_space hab).mp hcon.1
      have hz' : z = ' ' := (caseRel_space hrz).mp hcon.2
      exact (List.chain'_cons'.mp hnd).1 z (Option.mem_def.mpr hz) ⟨ha, hz'⟩
    · exact ih (List.chain'_cons'.mp hnd).2

/-- `Canon` transfers along a pointwise case-change. -/
theorem canon_rel {l m : List Char} (hrel : List.Forall₂ caseRel l m) (h : Canon l) :
    Canon m := by
  refine ⟨?_, ?_, ?_, ?_, ?_, ?_⟩
  · intro hm
    subst hm
    exact h.ne (List.forall₂_nil_right_iff.mp hrel)
  · intro y hy hsp
    obtain ⟨z, hz, hrz⟩ := rel_mem hrel hy
    rw [caseRel_pySpace hrz] at hsp
    exact (caseRel_space hrz).mpr (h.allsp z hz hsp)
  · exact noDbl_rel hrel h.nodbl
  · intro y hy
    obtain ⟨z, hz, hrz⟩ := rel_head? hrel hy
    rw [caseRel_pySpace hrz]
    exact h.headNoSp z hz
  · intro y hy
    obtain ⟨z, hz, hrz⟩ := rel_getLast? hrel hy
    have hl := h.lastOk z hz
    exact ⟨fun hc => hl.1 ((caseRel_space hrz).mp hc), fun hc => hl.2 ((caseRel_dot hrz).mp hc)⟩
  · intro hy
    obtain ⟨z, hz, hrz⟩ := rel_mem hrel hy
    exact h.nodash (((caseRel_dash hrz).mp rfl) ▸ hz)

theorem titlecaseAux_cons (b : Bool) (c : Char) (cs : List Char) :
    titlecaseAux b (c :: cs) =
      if isAlphaC c then
        (if b then c.toLower else c.toUpper) :: titlecaseAux true cs
      else if c == '\'' then
        c :: titlecaseAux b cs
      else
        c :: titlecaseAux false cs := rfl

theorem titlecaseAux_rel : ∀ (l : List Char) (b : Bool),
    List.Forall₂ caseRel l (titlecaseAux b l) := by
  intro l
  induction l with
  | nil => intro b; exact List.Forall₂.nil
  | cons c cs ih =>
    intro b
    rw [titlecaseAux_cons]
    by_cases ha : isAlphaC c
    · rw [if_pos ha]
      rcases b with _ | _
      · exact List.Forall₂.cons (Or.inr (Or.inl rfl)) (ih true)
      · exact List.Forall₂.cons (Or.inr (Or.inr rfl)) (ih true)
    · rw [if_neg ha]
      by_cases hap : (c == '\'') = true
      · rw [if_pos hap]
        exact List.Forall₂.cons (Or.inl rfl) (ih b)
      · rw [if_neg hap]
        exact List.Forall₂.cons (Or.inl rfl) (ih false)

theorem bool_and_iff {a b : Bool} : (a && b) = true ↔ a = true ∧ b = true := by
  simp

/-- No letter is immediately followed by an upper-case letter. -/
def noLUb : List Char → Bool
  | [] => true
  | [_] => true
  | a :: b :: r => !(isAlphaC a && isUpperC b) && noLUb (b :: r)

theorem noLUb_cons_cons (a b : Char) (r : List Char) :
    noLUb (a :: b :: r) = (!(isAlphaC a && isUpperC b) && noLUb (b :: r)) := rfl

theorem noLUb_tail : ∀ {a : Char} {l : List Char}, noLUb (a :: l) = true → noLUb l = true := by
  intro a l h
  rcases l with _ | ⟨b, r⟩
  · rfl
  · rw [noLUb_cons_cons] at h
    exact (bool_and_iff.mp h).2

theorem noLUb_head {a b : Char} {l : List Char} (h : noLUb (a :: l) = true)
    (hb : l.head? = some b) : (isAlphaC a && isUpperC b) = false := by
  rcases l with _ | ⟨b', r⟩
  · simp at hb
  · rw [List.head?_cons, Option.some.injEq] at hb
    subst hb
    rw [noLUb_cons_cons] at h
    have h1 := (bool_and_iff.mp h).1
    rcases hcomb : (isAlphaC a && isUpperC b') with _ | _
    · rfl
    · rw [hcomb] at h1
      exact absurd h1 (by decide)

theorem noLUb_append_left : ∀ {l r : List Char}, noLUb (l ++ r) = true → noLUb l = true := by
  intro l
  induction l with
  | nil => intro r _; rfl
  | cons a l' ih =>
    intro r h
    rcases hl : l' with _ | ⟨b, l2⟩
    · rfl
    · subst hl
      rw [List.cons_append, List.cons_append, noLUb_cons_cons] at h
      obtain ⟨h1, h2⟩ := bool_and_iff.mp h
      rw [noLUb_cons_cons]
      refine bool_and_iff.mpr ⟨h1, ?_⟩
      exact ih h2

theorem titlecaseAux_noLU : ∀ (l : List Char) (b : Bool),
    noLUb (titlecaseAux b l) = true ∧
      (∀ y, (titlecaseAux b l).head? = some y → b = true → isUpperC y = false) := by
  intro l
  induction l with
  | nil =>
    intro b
    refine ⟨rfl, fun y hy _ => ?_⟩
    rw [show titlecaseAux b [] = [] from rfl] at hy
    simp at hy
  | cons c cs ih =>
    intro b
    rw [titlecaseAux_cons]
    by_cases ha : isAlphaC c
    · rw [if_pos ha]
      constructor
      · rcases ht : titlecaseAux true cs with _ | ⟨y, rest⟩
        · rfl
        · rw [noLUb_cons_cons]
          refine bool_and_iff.mpr ⟨?_, by rw [← ht]; exact (ih true).1⟩
          have hy : isUpperC y = false := (ih true).2 y (by rw [ht]; rfl) rfl
          simp [hy]
      · intro y hy hb
        rw [List.head?_cons, Option.some.injEq] at hy
        subst hy
        rw [hb]
        simp only [if_pos rfl]
        exact isUpperC_toLower c
    · rw [if_neg ha]
      by_cases hap : (c == '\'') = true
      · rw [if_pos hap]
        constructor
        · rcases ht : titlecaseAux b cs with _ | ⟨y, rest⟩
          · rfl
          · rw [noLUb_cons_cons]
            refine bool_and_iff.mpr ⟨?_, by rw [← ht]; exact (ih b).1⟩
            simp [ha]
        · intro y hy _
          rw [List.head?_cons, Option.some.injEq] at hy
          subst hy
          exact isUpperC_of_alpha_false (Bool.eq_false_iff.mpr ha)
      · rw [if_neg hap]
        constructor
        · rcases ht : titlecaseAux false cs with _ | ⟨y, rest⟩
          · rfl
          · rw [noLUb_cons_cons]
            refine bool_and_iff.mpr ⟨?_, by rw [← ht]; exact (ih false).1⟩
            simp [ha]
        · intro y hy _
          rw [List.head?_cons, Option.some.injEq] at hy
          subst hy
          exact isUpperC_of_alpha_false (Bool.eq_false_iff.mpr ha)

theorem eatLit_eq : ∀ {lit s rest : List Char}, eatLit lit s = some rest → s = lit ++ rest := by
  intro lit
  induction lit with
  | nil =>
    intro s rest h
    rw [show eatLit [] s = some s from rfl, Option.some.injEq] at h
    rw [← h, List.nil_append]
  | cons l ls ih =>
    intro s rest h
    rcases s with _ | ⟨c, cs⟩
    · exact absurd h (by rw [show eatLit (l :: ls) [] = none from rfl]; simp)
    · rw [show eatLit (l :: ls) (c :: cs) = (if c = l then eatLit ls cs else none) from rfl] at h
      by_cases hc : c = l
      · rw [if_pos hc] at h
        rw [List.cons_append, ← hc, ih h]
      · rw [if_neg hc] at h
        simp at h

theorem acroLits_not_noLU : ∀ lit ∈ acroLits, noLUb lit = false := by decide

theorem tryAcro_eq_none {s : List Char} (hs : noLUb s = true) :
    ∀ lits : List (List Char), (∀ lit ∈ lits, noLUb lit = false) → tryAcro s lits = none := by
  intro lits
  induction lits with
  | nil => intro _; rfl
  | cons lit ls ih =>
    intro hbad
    rw [show tryAcro s (lit :: ls) =
      (match eatLit lit s with
       | some rest =>
         (match rest.head? with
          | some c => if wordC c then tryAcro s ls else some (lit, rest)
          | none => some (lit, rest))
       | none => tryAcro s ls) from rfl]
    rcases he : eatLit lit s with _ | rest
    · exact ih (fun l hl => hbad l (List.mem_cons_of_mem lit hl))
    · exfalso
      have hlit : noLUb lit = true := by
        rw [eatLit_eq he] at hs
        exact noLUb_append_left hs
      rw [hbad lit (List.mem_cons_self lit ls)] at hlit
      exact absurd hlit (by decide)

theorem acroGo_eq_self :
    ∀ (fuel : Nat) (b : Bool) (s : List Char), noLUb s = true → acroGo fuel b s = s := by
  intro fuel
  induction fuel with
  | zero => intro b s _; rfl
  | succ fuel ih =>
    intro b s hs
    rcases s with _ | ⟨c, cs⟩
    · rfl
    · rw [show acroGo (fuel + 1) b (c :: cs) =
        (if b then c :: acroGo fuel (wordC c) cs
         else
           match tryAcro (c :: cs) acroLits with
           | some (lit, rest) => lit.map Char.toUpper ++ acroGo fuel true rest
           | none => c :: acroGo fuel (wordC c) cs) from rfl]
      have htail : acroGo fuel (wordC c) cs = cs := ih (wordC c) cs (noLUb_tail hs)
      rcases b with _ | _
      · rw [if_neg (by simp)]
        rw [tryAcro_eq_none hs acroLits acroLits_not_noLU]
        rw [htail]
      · rw [if_pos rfl, htail]

theorem acronymSub_of_noLU {s : List Char} (h : noLUb s = true) : acronymSub s = s :=
  acroGo_eq_self s.length false s h

theorem acronymSub_titlecaseAux (l : List Char) (b : Bool) :
    acronymSub (titlecaseAux b l) = titlecaseAux b l :=
  acronymSub_of_noLU (titlecaseAux_noLU l b).1

theorem titlecaseAux_idem : ∀ (l : List Char) (b : Bool),
    titlecaseAux b (titlecaseAux b l) = titlecaseAux b l := by
  intro l
  induction l with
  | nil => intro b; rfl
  | cons c cs ih =>
    intro b
    rw [titlecaseAux_cons]
    by_cases ha : isAlphaC c
    · rw [if_pos ha]
      rw [titlecaseAux_cons]
      rcases b with _ | _
      · rw [if_pos (by rw [if_neg (by simp)]; rw [isAlphaC_toUpper]; exact ha)]
        rw [ih true]
        rw [show (if (false : Bool) then Char.toLower (if false then c.toLower else c.toUpper)
              else Char.toUpper (if false then c.toLower else c.toUpper)) =
            Char.toUpper c.toUpper from by rw [if_neg (by simp), if_neg (by simp)]]
        rw [toUpper_toUpper]
        rw [if_neg (by simp)]
      · rw [if_pos (by rw [if_pos rfl]; rw [isAlphaC_toLower]; exact ha)]
        rw [ih true]
        rw [show (if (true : Bool) then Char.toLower (if true then c.toLower else c.toUpper)
              else Char.toUpper (if true then c.toLower else c.toUpper)) =
            Char.toLower c.toLower from by rw [if_pos rfl, if_pos rfl]]
        rw [toLower_toLower]
        rw [if_pos rfl]
    · rw [if_neg ha]
      by_cases hap : (c == '\'') = true
      · rw [if_pos hap]
        rw [titlecaseAux_cons, if_neg ha, if_pos hap, ih b]
      · rw [if_neg hap]
        rw [titlecaseAux_cons, if_neg ha, if_neg hap, ih false]

theorem upChars_idem (l : List Char) :
    (l.map Char.toUpper).map Char.toUpper = l.map Char.toUpper := by
  induction l with
  | nil => rfl
  | cons c cs ih => rw [List.map_cons, List.map_cons, toUpper_toUpper, ih, ← List.map_cons]

theorem upChars_rel (l : List Char) : List.Forall₂ caseRel l (l.map Char.toUpper) := by
  induction l with
  | nil => exact List.Forall₂.nil
  | cons c cs ih =>
    rw [List.map_cons]
    exact List.Forall₂.cons (Or.inr (Or.inl rfl)) ih

theorem canon_upChars {l : List Char} (h : Canon l) : Canon (l.map Char.toUpper) :=
  canon_rel (upChars_rel l) h

theorem canon_titlecase {l : List Char} (h : Canon l) : Canon (titlecase l) :=
  canon_rel (titlecaseAux_rel l false) h

/-! ## C6 groundwork: rebuilding the canonical heading strings -/

def noDblB : List Char → Bool
  | [] => true
  | [_] => true
  | a :: b :: r => !(a == ' ' && b == ' ') && noDblB (b :: r)

theorem noDblB_iff : ∀ {l : List Char}, NoDbl l ↔ noDblB l = true := by
  intro l
  induction l with
  | nil => simp [NoDbl, noDblB]
  | cons a l ih =>
    rcases l with _ | ⟨b, r⟩
    · simp [NoDbl, noDblB, List.chain'_singleton]
    · have hpair : (!(a == ' ' && b == ' ')) = true ↔ ¬(a = ' ' ∧ b = ' ') := by
        simp only [Bool.not_eq_true', Bool.and_eq_false_iff, beq_eq_false_iff_ne, ne_eq, not_and]
        tauto
      rw [NoDbl_cons_cons,
        show noDblB (a :: b :: r) = ((!(a == ' ' && b == ' ')) && noDblB (b :: r)) from rfl,
        bool_and_iff, hpair, ← ih]

theorem NoDbl_append {a b : List Char} (ha : NoDbl a) (hb : NoDbl b)
    (hj : ∀ x y, a.getLast? = some x → b.head? = some y → ¬(x = ' ' ∧ y = ' ')) :
    NoDbl (a ++ b) := by
  rw [NoDbl, List.chain'_append]
  exact ⟨ha, hb, fun x hx y hy => hj x y (Option.mem_def.mp hx) (Option.mem_def.mp hy)⟩

theorem AllSp_append {a b : List Char} (ha : AllSp a) (hb : AllSp b) : AllSp (a ++ b) :=
  fun c hc hsp => (List.mem_append.mp hc).elim (fun h => ha c h hsp) (fun h => hb c h hsp)

theorem NoDbl_of_no_space : ∀ {l : List Char}, (∀ c ∈ l, c ≠ ' ') → NoDbl l := by
  intro l
  induction l with
  | nil => intro _; exact List.chain'_nil
  | cons a l ih =>
    intro h
    rw [NoDbl, List.chain'_cons']
    refine ⟨fun y _ hcon => h a (List.mem_cons_self a l) hcon.1, ?_⟩
    exact ih (fun c hc => h c (List.mem_cons_of_mem a hc))

theorem replaceDash_id : ∀ {l : List Char}, '—' ∉ l → replaceDash l = l := by
  intro l
  induction l with
  | nil => intro _; rfl
  | cons c cs ih =>
    intro h
    rw [replaceDash, List.map_cons]
    have hc : ¬ (c == '—') = true := by
      simp only [beq_iff_eq]
      exact fun hcc => h (hcc ▸ List.mem_cons_self c cs)
    rw [if_neg hc]
    rw [show List.map (fun c => if c == '—' then '-' else c) cs = replaceDash cs from rfl]
    rw [ih (fun hm => h (List.mem_cons_of_mem c hm))]

theorem romanCC_not_pySpace {c : Char} (h : romanCC c = true) : pySpace c = false := by
  rw [romanCC] at h
  simp only [Bool.or_eq_true, beq_iff_eq] at h
  rcases h with ((((((((h | h) | h) | h) | h) | h) | h) | h) | h) | h <;> subst h <;> decide

theorem romanCC_ne_space {c : Char} (h : romanCC c = true) : c ≠ ' ' := by
  intro hc
  subst hc
  exact absurd h (by decide)

theorem roman_mem : ∀ n, _roman n ∈ _ROMANS ∨ _roman n = "I" := by
  intro n
  rw [_roman]
  by_cases h : 1 ≤ n ∧ n ≤ 20
  · rw [if_pos h]
    left
    have hlt : n - 1 < _ROMANS.length := by
      rw [show _ROMANS.length = 20 from rfl]
      omega
    rw [List.getD_eq_getElem?_getD, List.getElem?_eq_getElem hlt]
    exact List.getElem_mem hlt
  · rw [if_neg h]
    right
    rfl

theorem roman_props (n : Nat) : (_roman n).data ≠ [] ∧
    ∀ c ∈ (_roman n).data, romanCC c = true ∧ c ≠ '—' := by
  have hall : ∀ s ∈ _ROMANS, s.data ≠ [] ∧ ∀ c ∈ s.data, romanCC c = true ∧ c ≠ '—' := by
    decide
  rcases roman_mem n with h | h
  · exact hall _ h
  · rw [h]
    decide

theorem digitChar_digit {n : Nat} (h : n < 10) : isDigitC (Nat.digitChar n) = true := by
  interval_cases n <;> decide

theorem natReprAux_props :
    ∀ (fuel n : Nat), n < fuel →
      natReprAux fuel n ≠ [] ∧ ∀ c ∈ natReprAux fuel n, isDigitC c = true := by
  intro fuel
  induction fuel with
  | zero => intro n h; omega
  | succ fuel ih =>
    intro n _
    by_cases h10 : n < 10
    · rw [show natReprAux (fuel + 1) n = if n < 10 then [Nat.digitChar n]
        else natReprAux fuel (n / 10) ++ [Nat.digitChar (n % 10)] from rfl, if_pos h10]
      refine ⟨by simp, ?_⟩
      intro c hc
      rw [List.mem_singleton] at hc
      subst hc
      exact digitChar_digit h10
    · rw [show natReprAux (fuel + 1) n = if n < 10 then [Nat.digitChar n]
        else natReprAux fuel (n / 10) ++ [Nat.digitChar (n % 10)] from rfl, if_neg h10]
      have hdiv : n / 10 < fuel := by
        have h1 : n / 10 < n := Nat.div_lt_self (by omega) (by omega)
        omega
      obtain ⟨hne, hdig⟩ := ih (n / 10) hdiv
      refine ⟨by simp, ?_⟩
      intro c hc
      rcases List.mem_append.mp hc with h | h
      · exact hdig c h
      · rw [List.mem_singleton] at h
        subst h
        exact digitChar_digit (Nat.mod_lt n (by omega))

theorem natRepr_props (n : Nat) : natRepr n ≠ [] ∧ ∀ c ∈ natRepr n, isDigitC c = true :=
  natReprAux_props (n + 1) n (by omega)

theorem isDigitC_ne_space {c : Char} (h : isDigitC c = true) : c ≠ ' ' := by
  intro hc
  subst hc
  exact absurd h (by decide)

theorem isDigitC_ne_dash {c : Char} (h : isDigitC c = true) : c ≠ '—' := by
  intro hc
  subst hc
  exact absurd h (by decide)

theorem dotSpace_eq_false {c : Char} (h1 : c ≠ ' ') (h2 : c ≠ '.') : dotSpace c = false := by
  rw [dotSpace]
  simp [h1, h2]

theorem head?_append_left {a : Char} {l r : List Char} :
    ((a :: l) ++ r).head? = some a := rfl

theorem pyNorm_built {lit mid T : List Char}
    (hlitNe : lit ≠ [])
    (hlitAll : AllSp lit) (hlitDbl : NoDbl lit) (hlitDash : '—' ∉ lit)
    (hlitHead : ∀ y, lit.head? = some y → pySpace y = false ∧ dotSpace y = false)
    (hmidNe : mid ≠ []) (hmid : ∀ c ∈ mid, c ≠ ' ' ∧ c ≠ '—' ∧ pySpace c = false)
    (hT : Canon T) :
    pyNorm (lit ++ (mid ++ (' ' :: '—' :: ' ' :: T))) =
      lit ++ (mid ++ (' ' :: '-' :: ' ' :: T)) := by
  have hmidAll : AllSp mid := fun c hc hsp => absurd hsp (by rw [(hmid c hc).2.2]; simp)
  have hmidDash : '—' ∉ mid := fun hm => (hmid _ hm).2.1 rfl
  have hrep : replaceDash (lit ++ (mid ++ (' ' :: '—' :: ' ' :: T))) =
      lit ++ (mid ++ (' ' :: '-' :: ' ' :: T)) := by
    rw [replaceDash, List.map_append, List.map_append]
    rw [show List.map (fun c => if c == '—' then '-' else c) lit = replaceDash lit from rfl,
        show List.map (fun c => if c == '—' then '-' else c) mid = replaceDash mid from rfl,
        show List.map (fun c => if c == '—' then '-' else c) (' ' :: '—' :: ' ' :: T) =
          ' ' :: '-' :: ' ' :: replaceDash T from rfl]
    rw [replaceDash_id hlitDash, replaceDash_id hmidDash, replaceDash_id hT.nodash]
  have hTne := hT.ne
  have hSPtl : AllSp ([' ', '-', ' '] ++ T) := by
    refine AllSp_append ?_ hT.allsp
    intro c hc hsp
    simp only [List.mem_cons, List.not_mem_nil, or_false] at hc
    rcases hc with rfl | rfl | rfl
    · rfl
    · exact absurd hsp (by decide)
    · rfl
  have hSP : AllSp (lit ++ (mid ++ (' ' :: '-' :: ' ' :: T))) :=
    AllSp_append hlitAll (AllSp_append hmidAll hSPtl)
  have hdblT : NoDbl ([' ', '-', ' '] ++ T) := by
    refine NoDbl_append (noDblB_iff.mpr (by decide)) hT.nodbl ?_
    intro x y hx hy hcon
    have hyT : pySpace y = false := hT.headNoSp y hy
    rw [hcon.2] at hyT
    exact absurd hyT (by decide)
  have hdblM : NoDbl (mid ++ (' ' :: '-' :: ' ' :: T)) := by
    refine NoDbl_append (NoDbl_of_no_space (fun c hc => (hmid c hc).1)) hdblT ?_
    intro x y hx hy hcon
    exact (hmid x (List.mem_of_getLast?_eq_some hx)).1 hcon.1
  have hdbl : NoDbl (lit ++ (mid ++ (' ' :: '-' :: ' ' :: T))) := by
    refine NoDbl_append hlitDbl hdblM ?_
    intro x y hx hy hcon
    rcases mid with _ | ⟨m0, mid'⟩
    · exact hmidNe rfl
    · rw [head?_append_left, Option.some.injEq] at hy
      exact (hmid m0 (List.mem_cons_self m0 mid')).1 (hy ▸ hcon.2)
  have hlastS : (lit ++ (mid ++ (' ' :: '-' :: ' ' :: T))).getLast? = T.getLast? := by
    rw [show (' ' :: '-' :: ' ' :: T) = [' ', '-', ' '] ++ T from rfl,
        getLast?_append_right (by simp), getLast?_append_right (by simp [hTne]),
        getLast?_append_right hTne]
  rcases lit with _ | ⟨l0, lit'⟩
  · exact absurd rfl hlitNe
  have hl0 := hlitHead l0 rfl
  rw [pyNorm, hrep]
  have hcons : ((l0 :: lit') ++ (mid ++ (' ' :: '-' :: ' ' :: T))) =
      l0 :: (lit' ++ (mid ++ (' ' :: '-' :: ' ' :: T))) := rfl
  have hcoll : collapse ((l0 :: lit') ++ (mid ++ (' ' :: '-' :: ' ' :: T))) =
      (l0 :: lit') ++ (mid ++ (' ' :: '-' :: ' ' :: T)) := by
    rw [collapse, hcons, List.dropWhile_cons_of_neg (by simp [hl0.1])]
    rw [← hcons]
    refine collapseGo_eq_self hSP hdbl ?_
    intro x hx
    rw [hlastS] at hx
    exact (hT.lastOk x hx).1
  rw [hcoll]
  rw [stripChars, hcons, List.dropWhile_cons_of_neg (by simp [hl0.2]), ← hcons]
  refine dropEnd_eq_self ?_
  intro x hx
  rw [hlastS] at hx
  exact dotSpace_eq_false (hT.lastOk x hx).1 (hT.lastOk x hx).2

theorem dropWhile_append_all {p : Char → Bool} :
    ∀ {a : List Char} (z : List Char), (∀ c ∈ a, p c = true) →
      (a ++ z).dropWhile p = z.dropWhile p := by
  intro a
  induction a with
  | nil => intro z _; rfl
  | cons x t ih =>
    intro z h
    rw [List.cons_append, List.dropWhile_cons_of_pos (h x (List.mem_cons_self x t))]
    exact ih z (fun c hc => h c (List.mem_cons_of_mem x hc))

theorem secGroupAt_built {R T : List Char}
    (hRne : R ≠ []) (hR : ∀ c ∈ R, romanCC c = true)
    (hTne : T ≠ []) (hThead : ∀ y, T.head? = some y → pySpace y = false)
    (hTnl : '\n' ∉ T) :
    secGroupAt ("SECTION ".data ++ (R ++ (' ' :: '-' :: ' ' :: T))) = some T := by
  rcases R with _ | ⟨r0, R'⟩
  · exact absurd rfl hRne
  rcases T with _ | ⟨t0, T'⟩
  · exact absurd rfl hTne
  have ht0 : pySpace t0 = false := hThead t0 rfl
  have he1 : eatLitCI "section".data
      ("SECTION ".data ++ ((r0 :: R') ++ (' ' :: '-' :: ' ' :: (t0 :: T')))) =
      some (' ' :: ((r0 :: R') ++ (' ' :: '-' :: ' ' :: (t0 :: T')))) := rfl
  have he2 : eatPlus pySpace (' ' :: ((r0 :: R') ++ (' ' :: '-' :: ' ' :: (t0 :: T')))) =
      some ((r0 :: R') ++ (' ' :: '-' :: ' ' :: (t0 :: T'))) := by
    rw [eatPlus_cons, if_pos (by decide)]
    rw [List.cons_append,
      List.dropWhile_cons_of_neg (by simp [romanCC_not_pySpace (hR r0 (List.mem_cons_self r0 R'))]),
      ← List.cons_append]
  have he3 : eatPlus romanCC ((r0 :: R') ++ (' ' :: '-' :: ' ' :: (t0 :: T'))) =
      some (' ' :: '-' :: ' ' :: (t0 :: T')) := by
    rw [List.cons_append, eatPlus_cons, if_pos (hR r0 (List.mem_cons_self r0 R'))]
    rw [dropWhile_append_all _ (fun c hc => hR c (List.mem_cons_of_mem r0 hc))]
    rw [List.dropWhile_cons_of_neg (by decide)]
  have he4 : (' ' :: '-' :: ' ' :: (t0 :: T')).dropWhile pySpace = '-' :: ' ' :: (t0 :: T') := by
    rw [List.dropWhile_cons_of_pos (by decide), List.dropWhile_cons_of_neg (by decide)]
  have he5 : eatOne dashC ('-' :: ' ' :: (t0 :: T')) = some (' ' :: (t0 :: T')) := by
    rw [eatOne_cons, if_pos (by decide)]
  have he6 : (' ' :: (t0 :: T')).dropWhile pySpace = t0 :: T' := by
    rw [List.dropWhile_cons_of_pos (by decide), List.dropWhile_cons_of_neg (by simp [ht0])]
  rw [secGroupAt]
  simp only [he1, he2, he3, he4, he5, he6]
  rw [if_neg (by simp)]
  rw [takeWhile_all (fun c hc => by simp; exact fun hcc => hTnl (hcc ▸ hc))]

theorem searchSec_built {R T : List Char}
    (hRne : R ≠ []) (hR : ∀ c ∈ R, romanCC c = true)
    (hTne : T ≠ []) (hThead : ∀ y, T.head? = some y → pySpace y = false)
    (hTnl : '\n' ∉ T) :
    searchSec ("SECTION ".data ++ (R ++ (' ' :: '-' :: ' ' :: T))) = some T := by
  have hg := secGroupAt_built hRne hR hTne hThead hTnl
  have hstep : searchFrom secGroupAt ("SECTION ".data ++ (R ++ (' ' :: '-' :: ' ' :: T))) =
      match secGroupAt ("SECTION ".data ++ (R ++ (' ' :: '-' :: ' ' :: T))) with
      | some g => some g
      | none => searchFrom secGroupAt ("ECTION ".data ++ (R ++ (' ' :: '-' :: ' ' :: T))) := rfl
  rw [searchSec, hstep, hg]

theorem chGroupAt_built {D T : List Char}
    (hDne : D ≠ []) (hD : ∀ c ∈ D, isDigitC c = true)
    (hTne : T ≠ []) (hThead : ∀ y, T.head? = some y → pySpace y = false)
    (hTnl : '\n' ∉ T) :
    chGroupAt ("CHAPTER ".data ++ (D ++ (' ' :: '-' :: ' ' :: T))) = some T := by
  rcases D with _ | ⟨d0, D'⟩
  · exact absurd rfl hDne
  rcases T with _ | ⟨t0, T'⟩
  · exact absurd rfl hTne
  have ht0 : pySpace t0 = false := hThead t0 rfl
  have he1 : eatLitCI "chapter".data
      ("CHAPTER ".data ++ ((d0 :: D') ++ (' ' :: '-' :: ' ' :: (t0 :: T')))) =
      some (' ' :: ((d0 :: D') ++ (' ' :: '-' :: ' ' :: (t0 :: T')))) := rfl
  have he2 : eatPlus pySpace (' ' :: ((d0 :: D') ++ (' ' :: '-' :: ' ' :: (t0 :: T')))) =
      some ((d0 :: D') ++ (' ' :: '-' :: ' ' :: (t0 :: T'))) := by
    rw [eatPlus_cons, if_pos (by decide)]
    rw [List.cons_append,
      List.dropWhile_cons_of_neg (by simp [isDigitC_not_pySpace (hD d0 (List.mem_cons_self d0 D'))]),
      ← List.cons_append]
  have he3 : eatPlus isDigitC ((d0 :: D') ++ (' ' :: '-' :: ' ' :: (t0 :: T'))) =
      some (' ' :: '-' :: ' ' :: (t0 :: T')) := by
    rw [List.cons_append, eatPlus_cons, if_pos (hD d0 (List.mem_cons_self d0 D'))]
    rw [dropWhile_append_all _ (fun c hc => hD c (List.mem_cons_of_mem d0 hc))]
    rw [List.dropWhile_cons_of_neg (by decide)]
  have he4 : (' ' :: '-' :: ' ' :: (t0 :: T')).dropWhile pySpace = '-' :: ' ' :: (t0 :: T') := by
    rw [List.dropWhile_cons_of_pos (by decide), List.dropWhile_cons_of_neg (by decide)]
  have he5 : eatOne dashC ('-' :: ' ' :: (t0 :: T')) = some (' ' :: (t0 :: T')) := by
    rw [eatOne_cons, if_pos (by decide)]
  have he6 : (' ' :: (t0 :: T')).dropWhile pySpace = t0 :: T' := by
    rw [List.dropWhile_cons_of_pos (by decide), List.dropWhile_cons_of_neg (by simp [ht0])]
  rw [chGroupAt]
  simp only [he1, he2, he3, he4, he5, he6]
  rw [if_neg (by simp)]
  rw [takeWhile_all (fun c hc => by simp; exact fun hcc => hTnl (hcc ▸ hc))]

theorem searchCh_built {D T : List Char}
    (hDne : D ≠ []) (hD : ∀ c ∈ D, isDigitC c = true)
    (hTne : T ≠ []) (hThead : ∀ y, T.head? = some y → pySpace y = false)
    (hTnl : '\n' ∉ T) :
    searchCh ("CHAPTER ".data ++ (D ++ (' ' :: '-' :: ' ' :: T))) = some T := by
  have hg := chGroupAt_built hDne hD hTne hThead hTnl
  have hstep : searchFrom chGroupAt ("CHAPTER ".data ++ (D ++ (' ' :: '-' :: ' ' :: T))) =
      match chGroupAt ("CHAPTER ".data ++ (D ++ (' ' :: '-' :: ' ' :: T))) with
      | some g => some g
      | none => searchFrom chGroupAt ("HAPTER ".data ++ (D ++ (' ' :: '-' :: ' ' :: T))) := rfl
  rw [searchCh, hstep, hg]

theorem cleanSectionText_idem (k : Nat) (text : List Char)
    (hne : secTitleRaw (pyNorm text) ≠ []) :
    cleanSectionText k (cleanSectionText k text) = cleanSectionText k text := by
  have hCX : Canon (secTitleRaw (pyNorm text)) := canon_secTitleRaw hne
  have hCU : Canon ((secTitleRaw (pyNorm text)).map Char.toUpper) := canon_upChars hCX
  have hUne : (secTitleRaw (pyNorm text)).map Char.toUpper ≠ [] := hCU.ne
  have hUnl : '\n' ∉ (secTitleRaw (pyNorm text)).map Char.toUpper := fun hm =>
    absurd (hCU.allsp _ hm (by decide)) (by decide)
  obtain ⟨hRne, hRprops⟩ := roman_props k
  have hshape : ∀ Y : List Char,
      "SECTION ".data ++ (_roman k).data ++ " — ".data ++ Y =
        "SECTION ".data ++ ((_roman k).data ++ (' ' :: '—' :: ' ' :: Y)) := by
    intro Y
    rw [List.append_assoc, List.append_assoc]
    rfl
  have hpy : pyNorm (cleanSectionText k text) =
      "SECTION ".data ++ ((_roman k).data ++ (' ' :: '-' :: ' ' ::
        (secTitleRaw (pyNorm text)).map Char.toUpper)) := by
    rw [cleanSectionText, hshape]
    refine pyNorm_built (by decide)
      (show ∀ c ∈ ("SECTION ".data : List Char), pySpace c = true → c = ' ' from by decide)
      (noDblB_iff.mpr (by decide)) (by decide) ?_ hRne ?_ hCU
    · intro y hy
      rw [show (("SECTION ".data : List Char)).head? = some 'S' from rfl,
        Option.some.injEq] at hy
      subst hy
      exact ⟨by decide, by decide⟩
    · intro c hc
      exact ⟨romanCC_ne_space (hRprops c hc).1, (hRprops c hc).2,
        romanCC_not_pySpace (hRprops c hc).1⟩
  have hsearch : searchSec (pyNorm (cleanSectionText k text)) =
      some ((secTitleRaw (pyNorm text)).map Char.toUpper) := by
    rw [hpy]
    exact searchSec_built hRne (fun c hc => (hRprops c hc).1) hUne hCU.headNoSp hUnl
  rw [show cleanSectionText k (cleanSectionText k text) =
      "SECTION ".data ++ (_roman k).data ++ " — ".data ++
        (secTitleRaw (pyNorm (cleanSectionText k text))).map Char.toUpper from rfl]
  rw [secTitleRaw]
  simp only [hsearch]
  rw [upChars_idem]
  rw [cleanSectionText]

theorem cleanChapterText_idem (k : Nat) (text : List Char)
    (hne : chTitleRaw (pyNorm text) ≠ []) :
    cleanChapterText k (cleanChapterText k text) = cleanChapterText k text := by
  have hTitle : cleanChapterTitle text = titlecaseAux false (chTitleRaw (pyNorm text)) := by
    rw [cleanChapterTitle, titlecase, acronymSub_titlecaseAux]
  have hCT : Canon (titlecaseAux false (chTitleRaw (pyNorm text))) :=
    canon_titlecase (canon_chTitleRaw hne)
  have hTnl : '\n' ∉ titlecaseAux false (chTitleRaw (pyNorm text)) := fun hm =>
    absurd (hCT.allsp _ hm (by decide)) (by decide)
  obtain ⟨hDne, hDprops⟩ := natRepr_props k
  have hshape : ∀ Y : List Char,
      "CHAPTER ".data ++ natRepr k ++ " — ".data ++ Y =
        "CHAPTER ".data ++ (natRepr k ++ (' ' :: '—' :: ' ' :: Y)) := by
    intro Y
    rw [List.append_assoc, List.append_assoc]
    rfl
  have hpy : pyNorm (cleanChapterText k text) =
      "CHAPTER ".data ++ (natRepr k ++ (' ' :: '-' :: ' ' ::
        titlecaseAux false (chTitleRaw (pyNorm text)))) := by
    rw [cleanChapterText, hTitle, hshape]
    refine pyNorm_built (by decide)
      (show ∀ c ∈ ("CHAPTER ".data : List Char), pySpace c = true → c = ' ' from by decide)
      (noDblB_iff.mpr (by decide)) (by decide) ?_ hDne ?_ hCT
    · intro y hy
      rw [show (("CHAPTER ".data : List Char)).head? = some 'C' from rfl,
        Option.some.injEq] at hy
      subst hy
      exact ⟨by decide, by decide⟩
    · intro c hc
      exact ⟨isDigitC_ne_space (hDprops c hc), isDigitC_ne_dash (hDprops c hc),
        isDigitC_not_pySpace (hDprops c hc)⟩
  have hsearch : searchCh (pyNorm (cleanChapterText k text)) =
      some (titlecaseAux false (chTitleRaw (pyNorm text))) := by
    rw [hpy]
    exact searchCh_built hDne hDprops hCT.ne hCT.headNoSp hTnl
  rw [show cleanChapterText k (cleanChapterText k text) =
      "CHAPTER ".data ++ natRepr k ++ " — ".data ++
        cleanChapterTitle (cleanChapterText k text) from rfl]
  rw [cleanChapterTitle, chTitleRaw]
  simp only [hsearch]
  rw [titlecase, titlecaseAux_idem, acronymSub_titlecaseAux]
  rw [cleanChapterText, hTitle]

/-- A heading's derived display title (the regex group, or the text after the
numeric-prefix strip) is non-empty: the guard under which one normalizer pass
is a fixed point of the next. -/
def titleOk : HeadingItem → Bool
  | (level, text) =>
    if level = 1 then !(secTitleRaw (pyNorm text.data)).isEmpty
    else !(chTitleRaw (pyNorm text.data)).isEmpty

theorem ne_nil_of_not_isEmpty {l : List Char} (h : (!l.isEmpty) = true) : l ≠ [] := by
  intro he
  subst he
  exact absurd h (by decide)

theorem cleanHeadings_cons (s c level : Nat) (text : String) (rest : List HeadingItem) :
    cleanHeadings s c ((level, text) :: rest) =
      if level = 1 then
        (level, String.mk (cleanSectionText (s + 1) text.data)) :: cleanHeadings (s + 1) c rest
      else
        (level, String.mk (cleanChapterText (c + 1) text.data)) :: cleanHeadings s (c + 1) rest := rfl

theorem cleanHeadings_idem :
    ∀ (hs : List HeadingItem) (s c : Nat), (∀ h ∈ hs, titleOk h = true) →
      cleanHeadings s c (cleanHeadings s c hs) = cleanHeadings s c hs := by
  intro hs
  induction hs with
  | nil => intro s c _; rfl
  | cons hd rest ih =>
    intro s c hok
    obtain ⟨level, text⟩ := hd
    have hhd := hok (level, text) (List.mem_cons_self _ rest)
    rw [titleOk] at hhd
    have hrest : ∀ h ∈ rest, titleOk h = true :=
      fun h hm => hok h (List.mem_cons_of_mem _ hm)
    by_cases hl : level = 1
    · rw [if_pos hl] at hhd
      have hne := ne_nil_of_not_isEmpty hhd
      rw [cleanHeadings_cons, if_pos hl, cleanHeadings_cons, if_pos hl]
      rw [show (String.mk (cleanSectionText (s + 1) text.data)).data =
        cleanSectionText (s + 1) text.data from rfl]
      rw [cleanSectionText_idem (s + 1) text.data hne]
      rw [ih (s + 1) c hrest]
    · rw [if_neg hl] at hhd
      have hne := ne_nil_of_not_isEmpty hhd
      rw [cleanHeadings_cons, if_neg hl, cleanHeadings_cons, if_neg hl]
      rw [show (String.mk (cleanChapterText (c + 1) text.data)).data =
        cleanChapterText (c + 1) text.data from rfl]
      rw [cleanChapterText_idem (c + 1) text.data hne]
      rw [ih s (c + 1) hrest]

/-- C6 (amended): the normalizer is idempotent on every heading sequence in
which each heading has a non-empty derived display title (section-regex group
or stripped remainder for level 1, chapter-regex group or stripped remainder
for other levels): a second `clean_structure` pass returns the first pass's
output unchanged.  Unconditional idempotence — the frozen claim — is false:
see `clean_structure_idem_counterexample`. -/
theorem clean_structure_idempotent (hs : List HeadingItem) (bs : List ContentBlock)
    (hok : ∀ h ∈ hs, titleOk h = true) :
    clean_structure (clean_structure hs bs).1 (clean_structure hs bs).2 =
      clean_structure hs bs := by
  rw [show clean_structure (clean_structure hs bs).1 (clean_structure hs bs).2 =
      (cleanHeadings 0 0 (cleanHeadings 0 0 hs), bs) from rfl]
  rw [clean_structure]
  rw [cleanHeadings_idem hs 0 0 hok]

/-- C6 counterexample: the heading `(1, "")` has an empty derived title; the
first pass yields `SECTION I — ` (trailing dash-space), which the second pass
re-parses and rewrites to `SECTION I — SECTION I -`, so `clean_structure` is
not idempotent as claimed. -/
theorem clean_structure_idem_counterexample :
    clean_structure (clean_structure [(1, "")] []).1 (clean_structure [(1, "")] []).2 ≠
      clean_structure [(1, "")] [] := by decide

theorem clean_structure_idempotent_witness :
    (∀ h ∈ [((1 : Nat), ("2. alpha" : String)), ((2 : Nat), ("1.1 beta" : String))],
        titleOk h = true) ∧
      clean_structure
          (clean_structure [((1 : Nat), ("2. alpha" : String)),
            ((2 : Nat), ("1.1 beta" : String))] []).1
          (clean_structure [((1 : Nat), ("2. alpha" : String)),
            ((2 : Nat), ("1.1 beta" : String))] []).2 =
        clean_structure [((1 : Nat), ("2. alpha" : String)),
          ((2 : Nat), ("1.1 beta" : String))] [] :=
  ⟨by decide, clean_structure_idempotent
    [((1 : Nat), ("2. alpha" : String)), ((2 : Nat), ("1.1 beta" : String))] [] (by decide)⟩
